import Mathlib

/-!
Verification of the REST docs update pipeline
(`src/rest/scripts/utils/update-markdown.js`).

The development shallowly embeds the script's core:
* `convertVersionsToFrontmatter` / `checkVersionContinuity` — the
  version-range compaction algorithm for numbered release lines;
* `getDataFrontmatter` — the catalog builder aggregating schema files;
* `updateIndexFile` — maintenance of `children` lists in `index.md` pages;
* `updateMarkdownFiles` — the tree reconciler.

JavaScript idioms are modelled explicitly: objects used as string-keyed
maps become association lists with JS assignment semantics (`upsert`:
in-place replacement of an existing key, append otherwise), JS `Array`
holes become `Option` cells, JS truthiness of a hole/string cell becomes
`jsTruthy`, `String.prototype.includes` becomes `jsIncludes`,
`Array.prototype.indexOf` (-1 on miss) becomes `jsIndexOf`, and
`Array.prototype.splice(start, 1)` with its negative-index wrap-around
becomes `jsSpliceDelete1`.  File-system state is a record of parsed
pages and directories, and fallible operations return `Except`.
-/

/-- JS association-list lookup with decidable keys: first matching key wins
(mirrors JS property access `obj[k]`, `undefined` ↦ `none`). -/
def alookup {α β : Type} [DecidableEq α] (k : α) : List (α × β) → Option β
  | [] => none
  | p :: t => if p.1 = k then some p.2 else alookup k t

/-- JS object assignment `obj[k] = v`: replace the value in place when the key
exists (key order unchanged), append the pair otherwise. -/
def upsert {α β : Type} [DecidableEq α] (l : List (α × β)) (k : α) (v : β) :
    List (α × β) :=
  if l.any (fun p => decide (p.1 = k)) then
    l.map (fun p => if p.1 = k then (k, v) else p)
  else l ++ [(k, v)]

/-- JS truthiness of an array cell holding either a hole (`undefined`) or a
string: holes and the empty string are falsy. -/
def jsTruthy : Option String → Bool
  | none => false
  | some s => !(s = "")

/-- Lexicographic comparison of character lists by code point — the order
the JS default string comparator induces on the ASCII strings at hand. -/
def charListLe : List Char → List Char → Bool
  | [], _ => true
  | _ :: _, [] => false
  | a :: as, b :: bs =>
      if a < b then true
      else if b < a then false
      else charListLe as bs

/-- Lexicographic string comparison by code point. -/
def strLe (a b : String) : Bool := charListLe a.data b.data

/-- JS default `Array.prototype.sort()` on strings (lexicographic order),
as used on `docsVersion.releases.sort()` and `Object.keys(...).sort()`. -/
def jsSortStrings (l : List String) : List String :=
  List.insertionSort (fun a b => strLe a b = true) l

/-- One version line's registry entry (`allVersions[version]` fields used by
the script): short name, whether the line has numbered releases, the list of
all releases and the entry's own release. -/
structure DocsVersion where
  shortName : String
  hasNumberedReleases : Bool
  releases : List String
  currentRelease : String
deriving DecidableEq

/-- `checkVersionContinuity` (lines 199–211): strip leading and trailing
falsy cells, then check that every remaining cell is truthy.  (The JS
`while` loops do not terminate on an all-falsy array; this total version
returns `true` there.  The caller only ever passes arrays with at least one
truthy cell under the claims' hypotheses.) -/
def checkVersionContinuity (versions : List (Option String)) : Bool :=
  let t := versions.dropWhile (fun o => !(jsTruthy o))
  let t2 := (t.reverse.dropWhile (fun o => !(jsTruthy o))).reverse
  t2.all jsTruthy

/-- `availableReleases.filter(Boolean)`, keeping the underlying strings. -/
def truthyVals (l : List (Option String)) : List String :=
  l.filterMap (fun o => if jsTruthy o then o else none)

/-- The range expression emitted for one numbered line's sparse positional
array (`convertVersionsToFrontmatter`, lines 161–186): `*` when every cell
is truthy, an `=`-enumeration when there are interior holes, and `<=`/`>=`
bounds otherwise. -/
def lineValue (availableReleases : List (Option String)) : String :=
  if availableReleases.all jsTruthy then "*"
  else if !(checkVersionContinuity availableReleases) then
    String.intercalate " || "
      ((truthyVals availableReleases).map (fun release => "=" ++ release))
  else
    let semVer :=
      (if !(jsTruthy (availableReleases.getLast?.getD none)) then
        ["<=" ++ ((truthyVals availableReleases).getLast?.getD "undefined")]
      else []) ++
      (if !(jsTruthy (availableReleases.head?.getD none)) then
        [">=" ++ ((truthyVals availableReleases).head?.getD "undefined")]
      else [])
    String.intercalate " " semVer

/-- A semver comparator appearing in an emitted range expression. -/
inductive Comparator where
  | le (r : String)
  | ge (r : String)
deriving DecidableEq

/-- The three shapes of an emitted `RangeExpression`: `*`, space-joined bounds,
or a `||`-joined `=release` enumeration. -/
inductive RangeExpr where
  | star
  | bounds (cs : List Comparator)
  | enum (rs : List String)
deriving DecidableEq

/-- Rendering a comparator the way the script prints it. -/
def Comparator.render : Comparator → String
  | .le r => "<=" ++ r
  | .ge r => ">=" ++ r

/-- Rendering a range expression the way the script prints it. -/
def RangeExpr.render : RangeExpr → String
  | .star => "*"
  | .bounds cs => String.intercalate " " (cs.map Comparator.render)
  | .enum rs => String.intercalate " || " (rs.map (fun r => "=" ++ r))

/-- The structured form of the expression `lineValue` emits (same branch
structure as `lineValue`; `lineRange_render` proves they agree). -/
def lineRange (availableReleases : List (Option String)) : RangeExpr :=
  if availableReleases.all jsTruthy then .star
  else if !(checkVersionContinuity availableReleases) then
    .enum (truthyVals availableReleases)
  else
    .bounds
      ((if !(jsTruthy (availableReleases.getLast?.getD none)) then
        [.le ((truthyVals availableReleases).getLast?.getD "undefined")]
      else []) ++
      (if !(jsTruthy (availableReleases.head?.getD none)) then
        [.ge ((truthyVals availableReleases).head?.getD "undefined")]
      else []))

/-- Position of a release in the ordered release list. -/
def relIdx (ordered : List String) (r : String) : Nat := List.indexOf r ordered

/-- Whether release `r` satisfies a comparator, releases being ordered by
their position in `ordered`. -/
def Comparator.sat (ordered : List String) (r : String) : Comparator → Bool
  | .le b => relIdx ordered r ≤ relIdx ordered b
  | .ge b => relIdx ordered b ≤ relIdx ordered r

/-- Semver-range evaluation of an emitted expression against the ordered
release list: `*` matches everything, space-joined bounds conjoin, and a
`||`-joined enumeration disjoins equalities. -/
def RangeExpr.sat (ordered : List String) (r : String) : RangeExpr → Bool
  | .star => true
  | .bounds cs => cs.all (Comparator.sat ordered r)
  | .enum rs => rs.any (fun x => x = r)

/-- State threaded through `convertVersionsToFrontmatter`'s first loop:
the `frontmatterVersions` object and the `numberedReleases` object
(each numbered line's sparse `availableReleases` array). -/
structure ConvState where
  fmv : List (String × String)
  nr : List (String × List (Option String))
deriving DecidableEq

/-- One iteration of the `versions.forEach` loop (lines 136–158): a
non-numbered line records `"*"`; a numbered line writes its release into the
sparse positional array over the sorted release list (`indexOf` returning
`-1` on a miss makes the write a no-op on the array's cells, which
`List.set` at index `length` reproduces). -/
def convStep (reg : String → DocsVersion) (s : ConvState) (version : String) :
    ConvState :=
  let docsVersion := reg version
  if !docsVersion.hasNumberedReleases then
    { s with fmv := upsert s.fmv docsVersion.shortName "*" }
  else
    let sorted := jsSortStrings docsVersion.releases
    let i := List.indexOf docsVersion.currentRelease sorted
    match alookup docsVersion.shortName s.nr with
    | none =>
      { s with nr := s.nr ++
          [(docsVersion.shortName,
            (List.replicate sorted.length (none : Option String)).set i
              (some docsVersion.currentRelease))] }
    | some availableReleases =>
      { s with nr := (upsert s.nr docsVersion.shortName
          (availableReleases.set i (some docsVersion.currentRelease))) }

/-- `convertVersionsToFrontmatter` (lines 130–194): run the per-version
loop, render each numbered line's array into an expression, and return the
object rebuilt with its keys sorted ascending. -/
def convertVersionsToFrontmatter (reg : String → DocsVersion)
    (versions : List String) : List (String × String) :=
  let s := versions.foldl (convStep reg) ⟨[], []⟩
  let fmv2 := s.nr.foldl (fun acc p => upsert acc p.1 (lineValue p.2)) s.fmv
  (jsSortStrings (fmv2.map Prod.fst)).map
    (fun key => (key, (alookup key fmv2).getD ""))

/-- The releases contributed to numbered line `k` by a version list: the
`currentRelease` of each tag of that line, in list order. -/
def linePresent (reg : String → DocsVersion) (versions : List String)
    (k : String) : List String :=
  versions.filterMap (fun v =>
    if (reg v).shortName = k ∧ (reg v).hasNumberedReleases then
      some (reg v).currentRelease
    else none)

/-- The sparse positional array determined by membership: position `i`
holds `ordered[i]` exactly when that release is present. -/
def markPresent (ordered present : List String) : List (Option String) :=
  ordered.map (fun r => if r ∈ present then some r else none)

/-- The effect of the first loop on one numbered line's `numberedReleases`
entry, as a fold over the releases the loop meets for this line: the first
release allocates the sparse array, later ones are written in place. -/
def lineAccum (sorted : List String) (start : Option (List (Option String)))
    (cs : List String) : Option (List (Option String)) :=
  cs.foldl (fun o c =>
    match o with
    | none =>
      some ((List.replicate sorted.length (none : Option String)).set
        (List.indexOf c sorted) (some c))
    | some a => some (a.set (List.indexOf c sorted) (some c))) start

/-- Example registry for the witnesses: the `ghes` line carries numbered
releases `3.3`, `3.4`, `3.5`; every other tag resolves to a non-numbered
line. -/
def regEx : String → DocsVersion := fun v =>
  if v = "enterprise-server@3.3" then
    ⟨"ghes", true, ["3.3", "3.4", "3.5"], "3.3"⟩
  else if v = "enterprise-server@3.4" then
    ⟨"ghes", true, ["3.3", "3.4", "3.5"], "3.4"⟩
  else if v = "enterprise-server@3.5" then
    ⟨"ghes", true, ["3.3", "3.4", "3.5"], "3.5"⟩
  else ⟨"fpt", false, [], ""⟩

/-- Registry whose `ghes` line has `3.3` as its only known release. -/
def regExSingle : String → DocsVersion := fun v =>
  if v = "enterprise-server@3.3" then ⟨"ghes", true, ["3.3"], "3.3"⟩
  else ⟨"fpt", false, [], ""⟩

/-! ### File-system model for the tree reconciler -/

/-- A frontmatter value: string, string list (the `children` key), a
versions map, or JS `null`/`undefined`. -/
inductive FmVal where
  | str (s : String)
  | strList (l : List String)
  | vmap (m : List (String × String))
  | null
deriving DecidableEq

/-- Parsed frontmatter: keys with values, in literal order. -/
abbrev FmData := List (String × FmVal)

/-- A parsed page: frontmatter plus opaque body text.  `matter` parsing and
`matter.stringify` round-trip through this representation. -/
structure Page where
  data : FmData
  content : String
deriving DecidableEq

/-- A path, as the list of its segments. -/
abbrev FsPath := List String

/-- The file-system state: parsed pages and the set of directories. -/
structure FS where
  pages : List (FsPath × Page)
  dirs : List FsPath
deriving DecidableEq

/-- `path.dirname`. -/
def dirname (p : FsPath) : FsPath := p.dropLast

/-- `path.basename` (without extension stripping). -/
def basename (p : FsPath) : String := p.getLast?.getD ""

/-- Whether `sub` occurs at the start of `l`. -/
def startsWithList {α : Type} [DecidableEq α] : List α → List α → Bool
  | [], _ => true
  | _ :: _, [] => false
  | a :: s, b :: t => decide (a = b) && startsWithList s t

/-- `path.basename(file, '.md')`: strip the extension when it is a proper
suffix of the base name (computed on the character list). -/
def stripMd (s : String) : String :=
  if ¬ (s = ".md") ∧ startsWithList ".md".data.reverse s.data.reverse then
    ⟨s.data.take (s.data.length - 3)⟩
  else s

/-- Render a segment path as the slash-joined string the script works on. -/
def pathString : FsPath → String
  | [] => ""
  | s :: t => if t = [] then s else s ++ "/" ++ pathString t

/-- Whether `sub` occurs as a contiguous segment of `l`. -/
def containsSeg {α : Type} [DecidableEq α] (sub : List α) : List α → Bool
  | [] => startsWithList sub []
  | a :: t => startsWithList sub (a :: t) || containsSeg sub t

/-- JS `s.includes(sub)`: substring containment. -/
def jsIncludes (s sub : String) : Bool := containsSeg sub.data s.data

/-- JS `Array.prototype.indexOf`: `-1` when the element is absent. -/
def jsIndexOf (l : List String) (x : String) : Int :=
  if x ∈ l then (List.indexOf x l : Int) else -1

/-- JS `Array.prototype.splice(start, 1)`: delete one element, a negative
`start` counting back from the end of the array. -/
def jsSpliceDelete1 {α : Type} (l : List α) (start : Int) : List α :=
  let s : Nat := if start < 0 then (max ((l.length : Int) + start) 0).toNat
    else min start.toNat l.length
  l.take s ++ l.drop (s + 1)

/-- `fs.existsSync`: true for both pages and directories. -/
def existsSync (fs : FS) (p : FsPath) : Bool :=
  (alookup p fs.pages).isSome || p ∈ fs.dirs

/-- `writeFile` of a parsed page. -/
def writePage (fs : FS) (p : FsPath) (pg : Page) : FS :=
  { fs with pages := upsert fs.pages p pg }

/-- `readdir` of a directory: names of its direct child files and
directories. -/
def readdirEntries (fs : FS) (d : FsPath) : List String :=
  (fs.pages.map Prod.fst).filterMap
    (fun p => if dirname p = d then some (basename p) else none) ++
  fs.dirs.filterMap (fun q => if dirname q = d then some (basename q) else none)

/-- `d` is a prefix of (or equal to) `p`. -/
def isUnder (d p : FsPath) : Bool := decide (p.take d.length = d)

/-- `rimraf.sync(d)`: remove the directory, its subdirectories and every
page beneath it. -/
def rimraf (fs : FS) (d : FsPath) : FS :=
  { pages := fs.pages.filter (fun e => !(isUnder d e.1)),
    dirs := fs.dirs.filter (fun q => !(isUnder d q)) }

/-- Every non-empty path leading to `d`, shortest first. -/
def pathPrefixes (d : FsPath) : List FsPath :=
  (List.range d.length).map (fun i => d.take (i + 1))

/-- `mkdirp(d)`: create `d` and any missing parents. -/
def mkdirp (fs : FS) (d : FsPath) : FS :=
  { fs with dirs := fs.dirs ++
      (pathPrefixes d).filter (fun q => !(decide (q ∈ fs.dirs))) }

/-- The placeholder index page synthesized when a directory has no
`index.md` (lines 86–96): keys in JS literal order, the defaults spread over
them, `children` last. -/
def newIndexData (indexDirectory : String) (versions : FmVal)
    (frontmatterDefaults : FmData) : FmData :=
  let base : FmData := [("title", FmVal.str indexDirectory),
    ("shortTitle", FmVal.str indexDirectory), ("intro", FmVal.str ""),
    ("versions", versions)]
  let merged := frontmatterDefaults.foldl
    (fun acc kv => upsert acc kv.1 kv.2) base
  upsert merged "children" (FmVal.strList [])

/-- The mutation `updateIndexFile` applies to the parsed index frontmatter
(lines 101–107): `remove` splices out one element at
`children.indexOf('/filename')` — which deletes the **last** child when the
reference is absent, `indexOf` being `-1`; `add` pushes unconditionally.
Accessing `children` on frontmatter that has no such list throws. -/
def updateIndexData (data : FmData) (changeType : String) (filename : String) :
    Except String FmData :=
  let afterRemove : Except String FmData :=
    if changeType = "remove" then
      match alookup "children" data with
      | some (FmVal.strList cs) =>
          .ok (upsert data "children"
            (FmVal.strList (jsSpliceDelete1 cs (jsIndexOf cs ("/" ++ filename)))))
      | _ => .error "TypeError: children"
    else .ok data
  match afterRemove with
  | .error e => .error e
  | .ok d2 =>
      if changeType = "add" then
        match alookup "children" d2 with
        | some (FmVal.strList cs) =>
            .ok (upsert d2 "children"
              (FmVal.strList (cs ++ ["/" ++ filename])))
        | _ => .error "TypeError: children"
      else .ok d2

/-- `updateIndexFile` (lines 80–109): locate (or synthesize) the index page
of `dirname(file)`, apply the child-list mutation, write the index back
preserving its body. -/
def updateIndexFile (frontmatterDefaults : FmData) (fs : FS) (file : FsPath)
    (changeType : String) (versions : FmVal) : Except String FS :=
  let filename := stripMd (basename file)
  let indexDirectory := basename (dirname file)
  let indexFilePath := dirname file ++ ["index.md"]
  let pgE : Except String Page :=
    if existsSync fs indexFilePath then
      match alookup indexFilePath fs.pages with
      | some pg => .ok pg
      | none => .error "EISDIR: readFile"
    else .ok ⟨newIndexData indexDirectory versions frontmatterDefaults, ""⟩
  match pgE with
  | .error e => .error e
  | .ok pg =>
      match updateIndexData pg.data changeType filename with
      | .error e => .error e
      | .ok d2 => .ok (writePage fs indexFilePath ⟨d2, pg.content⟩)

/-- Error-propagating left fold: the reconciliation loops abort on the first
failing step. -/
def foldE {σ α : Type} (f : σ → α → Except String σ) :
    σ → List α → Except String σ
  | s, [] => .ok s
  | s, a :: l =>
      match f s a with
      | .ok s2 => foldE f s2 l
      | .error e => .error e

/-- One iteration of the deletion loop (lines 43–55): unlink the page; if
its directory then holds only `index.md`, remove the whole directory and the
directory's own reference from the grandparent index, else remove the page's
reference from its parent index. -/
def removeStep (frontmatterDefaults : FmData) (fs : FS) (file : FsPath) :
    Except String FS :=
  match alookup file fs.pages with
  | none => .error "ENOENT: unlink"
  | some _ =>
      let fs1 : FS :=
        { fs with pages := fs.pages.filter (fun e => !(decide (e.1 = file))) }
      if dirname file ∈ fs1.dirs then
        if readdirEntries fs1 (dirname file) = ["index.md"] then
          updateIndexFile frontmatterDefaults (rimraf fs1 (dirname file))
            (dirname file) "remove" FmVal.null
        else
          updateIndexFile frontmatterDefaults fs1 file "remove" FmVal.null
      else .error "ENOENT: readdir"

/-- One iteration of the add-or-update loop (lines 58–76): an existing page
has only its `versions` key overwritten; a new page gets its directory
created (updating the parent index) when missing, is written with the full
desired frontmatter and an empty body, and is added to its parent index. -/
def addOrUpdateStep (frontmatterDefaults : FmData) (fs : FS) (file : FsPath)
    (newFrontmatter : FmData) : Except String FS :=
  if existsSync fs file then
    match alookup file fs.pages with
    | none => .error "EISDIR: readFile"
    | some pg =>
        let newData := upsert pg.data "versions"
          ((alookup "versions" newFrontmatter).getD FmVal.null)
        .ok (writePage fs file ⟨newData, pg.content⟩)
  else
    match (if !(existsSync fs (dirname file)) then
        updateIndexFile frontmatterDefaults (mkdirp fs (dirname file))
          (dirname file) "add" FmVal.null
      else .ok fs) with
    | .error e => .error e
    | .ok fs1 =>
        let fs2 := writePage fs1 file ⟨newFrontmatter, ""⟩
        updateIndexFile frontmatterDefaults fs2 file "add"
          ((alookup "versions" newFrontmatter).getD FmVal.null)

/-- Whether a page path lies strictly below `content/rest` (what
`walk('content/rest', { directories: false })` returns). -/
def underRest (p : FsPath) : Bool :=
  decide (p.take 2 = ["content", "rest"]) && decide (2 < p.length)

/-- `updateMarkdownFiles` (lines 17–77), against a fixed desired page map
(`restContentFrontmatter`, derived from the catalog): scan `content/rest`
excluding paths containing `index.md`/`README.md`, delete autogenerated pages
that are no longer desired (maintaining indexes), then add or update every
desired page.  The source launches its two index updates in the second loop
without `await`; this sequential model runs them to completion in program
order. -/
def updateMarkdownFiles (frontmatterDefaults : FmData)
    (restContentFrontmatter : List (FsPath × FmData)) (fs : FS) :
    Except String FS :=
  let restMarkdownFiles := (fs.pages.map Prod.fst).filter (fun p =>
    underRest p && !(jsIncludes (pathString p) "index.md") &&
      !(jsIncludes (pathString p) "README.md"))
  let existingAutogeneratedFiles := restMarkdownFiles.filter (fun p =>
    match alookup p fs.pages with
    | some pg => decide (alookup "autogenerated" pg.data =
        some (FmVal.str "rest"))
    | none => false)
  let filesToRemove := existingAutogeneratedFiles.filter
    (fun p => !(decide (p ∈ restContentFrontmatter.map Prod.fst)))
  match foldE (removeStep frontmatterDefaults) fs filesToRemove with
  | .error e => .error e
  | .ok fsr =>
      foldE (fun s pf => addOrUpdateStep frontmatterDefaults s pf.1 pf.2) fsr
        restContentFrontmatter

/-- The frame tracked for a page through the deletion loop: the page is in
place, its intermediate directories exist, and no directory shares its
path. -/
def PageInPlace (p : FsPath) (pg0 : Page) (fs : FS) : Prop :=
  alookup p fs.pages = some pg0 ∧
  (∀ m, 3 ≤ m → m < p.length → p.take m ∈ fs.dirs) ∧
  p ∉ fs.dirs

/-- A desired page that has been written: it is on disk and a further
overwrite of its `versions` key is the identity. -/
def Settled (q : FsPath) (fm : FmData) (fs : FS) : Prop :=
  ∃ d c, alookup q fs.pages = some ⟨d, c⟩ ∧
    upsert d "versions" ((alookup "versions" fm).getD FmVal.null) = d

/-- The walk filter of `updateMarkdownFiles`: below `content/rest`, path
string free of `index.md` and `README.md`. -/
def walkFilter (p : FsPath) : Bool :=
  underRest p && !(jsIncludes (pathString p) "index.md") &&
    !(jsIncludes (pathString p) "README.md")

/-- The autogenerated-marker test of `updateMarkdownFiles`. -/
def autogenPage (fs : FS) (p : FsPath) : Bool :=
  match alookup p fs.pages with
  | some pg => decide (alookup "autogenerated" pg.data =
      some (FmVal.str "rest"))
  | none => false

/-- The `filesToRemove` list computed by `updateMarkdownFiles`. -/
def filesToRemoveOf (desired : List (FsPath × FmData)) (fs : FS) :
    List FsPath :=
  (((fs.pages.map Prod.fst).filter walkFilter).filter (autogenPage fs)).filter
    (fun p => !(decide (p ∈ desired.map Prod.fst)))

/-- The `frontmatterVersions` object after the second loop
(`convertVersionsToFrontmatter` before the key-sorted rebuild). -/
def fmv2Of (reg : String → DocsVersion) (versions : List String) :
    List (String × String) :=
  (versions.foldl (convStep reg) ⟨[], []⟩).nr.foldl
    (fun acc p => upsert acc p.1 (lineValue p.2))
    (versions.foldl (convStep reg) ⟨[], []⟩).fmv

/-! ### The catalog builder `getDataFrontmatter` -/

/-- One version's schema file as the script reads it: the basename of its
directory (through `getDocsVersion` this yields the contributed docs version
name) and the parsed JSON body, each category paired with its list of
subcategory keys. -/
structure SchemaFile where
  dirName : String
  data : List (String × List String)
deriving DecidableEq

/-- The `restVersions` catalog: category ↦ subcategory ↦ collected
`versions` list. -/
abbrev RestVersions := List (String × List (String × List String))

/-- The assignment block of `getDataFrontmatter`'s inner `forEach`
(lines 231–240): ensure the category object exists, then create the
subcategory's `versions` as `[docsVersionName]`, or push the name when the
list does not yet include it. -/
def catStep (dvn : String) (rv : RestVersions)
    (category subcategory : String) : RestVersions :=
  let cur := (alookup category rv).getD []
  match alookup subcategory cur with
  | none => upsert rv category (upsert cur subcategory [dvn])
  | some vs =>
      if dvn ∈ vs then rv
      else upsert rv category (upsert cur subcategory (vs ++ [dvn]))

/-- Processing one schema file (the body of `for (const file of fileList)`,
lines 224–243): fold the assignment over every category's subcategory keys
in object order. -/
def fileStep (gdv : String → String) (rv : RestVersions) (f : SchemaFile) :
    RestVersions :=
  f.data.foldl
    (fun acc p =>
      p.2.foldl (fun acc2 sub => catStep (gdv f.dirName) acc2 p.1 sub) acc)
    rv

/-- `getDataFrontmatter` (lines 217–245): fold the per-file processing over
the walked file list, `getDocsVersion` abstracted as `gdv`. -/
def getDataFrontmatter (gdv : String → String) (fileList : List SchemaFile) :
    RestVersions :=
  fileList.foldl (fileStep gdv) []

/-- The catalog's `versions` cell at a category/subcategory pair. -/
def lookup2 (rv : RestVersions) (c s : String) : Option (List String) :=
  alookup s ((alookup c rv).getD [])

/-- Whether a schema file's body mentions a category/subcategory pair. -/
def fileMentions (f : SchemaFile) (c s : String) : Bool :=
  f.data.any (fun p => decide (p.1 = c) && p.2.contains s)

/-- The effect of one assignment on one `versions` cell: create `[dvn]`,
or append `dvn` when missing. -/
def touch (dvn : String) : Option (List String) → Option (List String)
  | none => some [dvn]
  | some vs => some (if dvn ∈ vs then vs else vs ++ [dvn])

theorem jsSortStrings_perm (l : List String) : (jsSortStrings l).Perm l :=
  List.perm_insertionSort (fun a b => strLe a b = true) l

/-! ### Association-list lemmas -/

theorem alookup_append {α β : Type} [DecidableEq α] (k : α)
    (l₁ l₂ : List (α × β)) :
    alookup k (l₁ ++ l₂) =
      match alookup k l₁ with
      | some v => some v
      | none => alookup k l₂ := by
  induction l₁ with
  | nil => simp [alookup]
  | cons p t ih =>
      by_cases h : p.1 = k <;> simp [alookup, h, ih]

theorem alookup_map_replace {α β : Type} [DecidableEq α] (l : List (α × β))
    (k k' : α) (v : β) :
    alookup k (l.map (fun p => if p.1 = k' then (k', v) else p)) =
      if k' = k then (alookup k l).map (fun _ => v) else alookup k l := by
  induction l with
  | nil => simp [alookup]
  | cons p t ih =>
      by_cases hp : p.1 = k'
      · by_cases hk : k' = k
        · subst hk
          simp [alookup, hp, ih]
        · have hpk : ¬ p.1 = k := by rw [hp]; exact hk
          simp [alookup, hp, hpk, hk, ih]
      · by_cases hk : p.1 = k
        · have hkk : ¬ (k' = k) := fun h => hp (by rw [hk, h])
          have hkk2 : ¬ (k = k') := fun h => hkk h.symm
          simp [alookup, hp, hk, hkk, hkk2]
        · simp [alookup, hp, hk, ih]

theorem any_key_eq_isSome {α β : Type} [DecidableEq α] (l : List (α × β))
    (k : α) :
    (l.any (fun p => decide (p.1 = k))) = (alookup k l).isSome := by
  induction l with
  | nil => simp [alookup]
  | cons p t ih =>
      by_cases h : p.1 = k <;> simp [alookup, h, ih]

theorem alookup_upsert {α β : Type} [DecidableEq α] (l : List (α × β))
    (k k' : α) (v : β) :
    alookup k (upsert l k' v) = if k' = k then some v else alookup k l := by
  unfold upsert
  rw [any_key_eq_isSome]
  cases hl : alookup k' l with
  | some w =>
      simp only [Option.isSome_some, if_true, alookup_map_replace]
      by_cases hk : k' = k
      · subst hk; simp [hl]
      · simp [hk]
  | none =>
      simp only [Option.isSome_none, Bool.false_eq_true, if_false,
        alookup_append]
      by_cases hk : k' = k
      · subst hk; simp [alookup, hl]
      · cases h2 : alookup k l <;> simp [alookup, hk]

theorem alookup_isSome_iff_mem_keys {α β : Type} [DecidableEq α]
    (l : List (α × β)) (k : α) :
    (alookup k l).isSome ↔ k ∈ l.map Prod.fst := by
  induction l with
  | nil => simp [alookup]
  | cons p t ih =>
      simp only [alookup, List.map_cons, List.mem_cons]
      by_cases h : p.1 = k
      · simp [h]
      · have hne : ¬ (k = p.1) := fun he => h he.symm
        simp [h, hne, ih]

theorem upsert_keys {α β : Type} [DecidableEq α] (l : List (α × β))
    (k : α) (v : β) :
    (upsert l k v).map Prod.fst =
      if (alookup k l).isSome then l.map Prod.fst
      else l.map Prod.fst ++ [k] := by
  unfold upsert
  rw [any_key_eq_isSome]
  cases hl : (alookup k l).isSome with
  | true =>
      simp only [if_true, List.map_map]
      apply List.map_congr_left
      intro p _
      by_cases h : p.1 = k <;> simp [h]
  | false => simp

theorem upsert_keys_nodup {α β : Type} [DecidableEq α] (l : List (α × β))
    (k : α) (v : β) (h : (l.map Prod.fst).Nodup) :
    ((upsert l k v).map Prod.fst).Nodup := by
  rw [upsert_keys]
  cases hl : (alookup k l).isSome with
  | true => simpa
  | false =>
      have hk : k ∉ l.map Prod.fst := by
        rw [← alookup_isSome_iff_mem_keys, hl]; simp
      simp [List.nodup_append, h, hk]

theorem upsert_noop {α β : Type} [DecidableEq α] (l : List (α × β))
    (k : α) (v : β) (hnd : (l.map Prod.fst).Nodup)
    (h : alookup k l = some v) :
    upsert l k v = l := by
  unfold upsert
  rw [any_key_eq_isSome, h]
  simp only [Option.isSome_some, if_true]
  induction l with
  | nil => simp [alookup] at h
  | cons p t ih =>
      simp only [List.map_cons, List.nodup_cons] at hnd
      by_cases hp : p.1 = k
      · simp only [alookup, if_pos hp] at h
        have hpt : ∀ q ∈ t, ¬ q.1 = k := by
          intro q hq hqk
          exact hnd.1 (by rw [hp, ← hqk]; exact List.mem_map_of_mem Prod.fst hq)
        have hfix : t.map (fun q => if q.1 = k then (k, v) else q) = t := by
          conv_rhs => rw [← List.map_id t]
          apply List.map_congr_left
          intro q hq
          simp [hpt q hq]
        have hpe : p = (k, v) := by
          cases h
          exact Prod.ext hp rfl
        simp [hfix, hpe]
      · simp only [alookup, if_neg hp] at h
        simp [hp, ih hnd.2 h]

theorem upsert_upsert {α β : Type} [DecidableEq α] (l : List (α × β))
    (k : α) (v : β) :
    upsert (upsert l k v) k v = upsert l k v := by
  have hmem : (alookup k (upsert l k v)).isSome := by
    rw [alookup_upsert]; simp
  have hval : ∀ p ∈ upsert l k v, p.1 = k → p = (k, v) := by
    intro p hp h
    unfold upsert at hp
    by_cases hany : l.any (fun q => decide (q.1 = k))
    · rw [if_pos hany] at hp
      rw [List.mem_map] at hp
      obtain ⟨q, hq, hqe⟩ := hp
      by_cases hqk : q.1 = k
      · rw [if_pos hqk] at hqe; exact hqe.symm
      · rw [if_neg hqk] at hqe
        rw [← hqe] at h
        exact absurd h hqk
    · rw [if_neg hany] at hp
      rw [List.mem_append, List.mem_singleton] at hp
      rcases hp with hp | hp
      · exact absurd (List.any_eq_true.mpr ⟨p, hp, by simp [h]⟩) hany
      · exact hp
  generalize hu : upsert l k v = u at hmem hval
  conv_lhs => unfold upsert
  rw [any_key_eq_isSome, hmem, if_pos rfl]
  conv_rhs => rw [← List.map_id u]
  apply List.map_congr_left
  intro p hp
  by_cases h : p.1 = k
  · simp [hval p hp h]
  · simp [h]

theorem alookup_map_pair {α β : Type} [DecidableEq α] (ks : List α)
    (g : α → β) (k : α) :
    alookup k (ks.map (fun x => (x, g x))) =
      if k ∈ ks then some (g k) else none := by
  induction ks with
  | nil => simp [alookup]
  | cons x t ih =>
      by_cases h : x = k
      · subst h; simp [alookup, ih]
      · have hne : ¬ (k = x) := fun he => h he.symm
        simp [alookup, h, hne, ih]

/-! ### The sparse positional array built by the per-version loop -/

theorem markPresent_length (ordered present : List String) :
    (markPresent ordered present).length = ordered.length := by
  simp [markPresent]

theorem markPresent_nil (ordered : List String) :
    markPresent ordered [] = List.replicate ordered.length none := by
  simp [markPresent]

theorem markPresent_congr (ordered present present' : List String)
    (h : ∀ r, r ∈ present ↔ r ∈ present') :
    markPresent ordered present = markPresent ordered present' := by
  unfold markPresent
  apply List.map_congr_left
  intro r _
  by_cases hr : r ∈ present
  · rw [if_pos hr, if_pos ((h r).mp hr)]
  · rw [if_neg hr, if_neg (fun hc => hr ((h r).mpr hc))]

theorem markPresent_set (ordered present : List String) (c : String)
    (hnd : ordered.Nodup) :
    (markPresent ordered present).set (List.indexOf c ordered) (some c) =
      markPresent ordered (present ++ [c]) := by
  by_cases hc : c ∈ ordered
  · apply List.ext_getElem
    · simp [markPresent]
    · intro i h1 h2
      have hio : i < ordered.length := by
        simpa [markPresent] using h2
      have hidx : List.indexOf c ordered < ordered.length :=
        List.indexOf_lt_length.mpr hc
      by_cases hi : i = List.indexOf c ordered
      · subst hi
        rw [List.getElem_set_self]
        have : ordered[List.indexOf c ordered] = c := List.getElem_indexOf hidx
        simp [markPresent, this]
      · rw [List.getElem_set_ne (fun he => hi he.symm)]
        have hne : ¬ (ordered[i] = c) := by
          intro he
          exact hi (by rw [← he]; exact (List.indexOf_getElem hnd i hio).symm)
        simp only [markPresent, List.getElem_map]
        by_cases hm : ordered[i] ∈ present
        · simp [hm]
        · have : ¬ (ordered[i] ∈ present ++ [c]) := by
            simp [hm, hne]
          simp [hm, this]
  · have hidx : List.indexOf c ordered = ordered.length :=
      List.indexOf_eq_length.mpr hc
    rw [List.set_eq_of_length_le (by simp [markPresent, hidx])]
    unfold markPresent
    apply List.map_congr_left
    intro r hr
    have hrc : ¬ (r = c) := fun he => hc (he ▸ hr)
    by_cases hm : r ∈ present
    · simp [hm]
    · have hm2 : ¬ r ∈ present ++ [c] := by simp [hm, hrc]
      simp [hm, hm2]

theorem lineAccum_some (sorted : List String) (a : List (Option String)) :
    ∀ cs, lineAccum sorted (some a) cs =
      some (cs.foldl (fun a c => a.set (List.indexOf c sorted) (some c)) a) := by
  intro cs
  induction cs generalizing a with
  | nil => rfl
  | cons c t ih => simp [lineAccum] at ih ⊢; rw [ih]

theorem foldl_set_markPresent (sorted : List String) (hnd : sorted.Nodup) :
    ∀ (cs ps : List String),
      cs.foldl (fun a c => a.set (List.indexOf c sorted) (some c))
        (markPresent sorted ps) = markPresent sorted (ps ++ cs) := by
  intro cs
  induction cs with
  | nil => simp
  | cons c t ih =>
      intro ps
      rw [List.foldl_cons, markPresent_set sorted ps c hnd, ih (ps ++ [c]),
        List.append_assoc]
      simp

theorem lineAccum_eq_markPresent (sorted : List String) (cs : List String)
    (hnd : sorted.Nodup) (hcs : cs ≠ []) :
    lineAccum sorted none cs = some (markPresent sorted cs) := by
  cases cs with
  | nil => exact absurd rfl hcs
  | cons c t =>
      have h1 : lineAccum sorted none (c :: t) =
          lineAccum sorted
            (some ((List.replicate sorted.length none).set
              (List.indexOf c sorted) (some c))) t := rfl
      rw [h1, ← markPresent_nil sorted, markPresent_set sorted [] c hnd,
        lineAccum_some, foldl_set_markPresent sorted hnd]
      simp

theorem lineAccum_eq_none (sorted : List String) (cs : List String) :
    lineAccum sorted none cs = none ↔ cs = [] := by
  cases cs with
  | nil => simp [lineAccum]
  | cons c t =>
      have h1 : lineAccum sorted none (c :: t) =
          lineAccum sorted
            (some ((List.replicate sorted.length none).set
              (List.indexOf c sorted) (some c))) t := rfl
      rw [h1, lineAccum_some]
      simp

/-! ### Characterizing `convertVersionsToFrontmatter` -/

theorem linePresent_cons (reg : String → DocsVersion) (v : String)
    (t : List String) (k : String) :
    linePresent reg (v :: t) k =
      if (reg v).shortName = k ∧ (reg v).hasNumberedReleases then
        (reg v).currentRelease :: linePresent reg t k
      else linePresent reg t k := by
  by_cases h : (reg v).shortName = k ∧ (reg v).hasNumberedReleases
  · simp [linePresent, h]
  · simp [linePresent, h]

theorem foldl_convStep_nr (reg : String → DocsVersion) (k : String)
    (R : List String) :
    ∀ (versions : List String) (s : ConvState),
      (∀ v ∈ versions, (reg v).shortName = k →
        (reg v).hasNumberedReleases = true → (reg v).releases = R) →
      alookup k (versions.foldl (convStep reg) s).nr =
        lineAccum (jsSortStrings R) (alookup k s.nr)
          (linePresent reg versions k) := by
  intro versions
  induction versions with
  | nil => intro s _; rfl
  | cons v t ih =>
      intro s hkR
      rw [List.foldl_cons, linePresent_cons]
      by_cases hb : (reg v).hasNumberedReleases = true
      · by_cases hs : (reg v).shortName = k
        · have hR : (reg v).releases = R :=
            hkR v (List.mem_cons_self v t) hs hb
          rw [if_pos ⟨hs, hb⟩]
          cases hnr : alookup (reg v).shortName s.nr with
          | none =>
              have hstep : (convStep reg s v).nr =
                  s.nr ++ [((reg v).shortName,
                    (List.replicate (jsSortStrings (reg v).releases).length
                      (none : Option String)).set
                      (List.indexOf (reg v).currentRelease
                        (jsSortStrings (reg v).releases))
                      (some (reg v).currentRelease))] := by
                simp [convStep, hb, hnr]
              rw [ih (convStep reg s v)
                (fun w hw => hkR w (List.mem_cons_of_mem v hw)), hstep,
                alookup_append]
              rw [hs] at hnr
              rw [hnr]
              have halt : alookup k [((reg v).shortName,
                    (List.replicate (jsSortStrings (reg v).releases).length
                      (none : Option String)).set
                      (List.indexOf (reg v).currentRelease
                        (jsSortStrings (reg v).releases))
                      (some (reg v).currentRelease))] =
                  some ((List.replicate (jsSortStrings R).length
                      (none : Option String)).set
                      (List.indexOf (reg v).currentRelease (jsSortStrings R))
                      (some (reg v).currentRelease)) := by
                simp [alookup, hs, hR]
              rw [halt]
              rfl
          | some a =>
              have hstep : (convStep reg s v).nr =
                  upsert s.nr (reg v).shortName
                    (a.set (List.indexOf (reg v).currentRelease
                      (jsSortStrings (reg v).releases))
                      (some (reg v).currentRelease)) := by
                simp [convStep, hb, hnr]
              rw [ih (convStep reg s v)
                (fun w hw => hkR w (List.mem_cons_of_mem v hw)), hstep,
                alookup_upsert]
              rw [if_pos hs, hR]
              rw [hs] at hnr
              rw [hnr]
              rfl
        · rw [if_neg (fun hc => hs hc.1)]
          have hlk : alookup k (convStep reg s v).nr = alookup k s.nr := by
            cases hnr : alookup (reg v).shortName s.nr with
            | none =>
                have hstep : (convStep reg s v).nr = s.nr ++
                    [((reg v).shortName,
                      (List.replicate (jsSortStrings (reg v).releases).length
                        (none : Option String)).set
                        (List.indexOf (reg v).currentRelease
                          (jsSortStrings (reg v).releases))
                        (some (reg v).currentRelease))] := by
                  simp [convStep, hb, hnr]
                rw [hstep, alookup_append]
                cases h2 : alookup k s.nr with
                | some w => rfl
                | none => simp [alookup, hs]
            | some a =>
                have hstep : (convStep reg s v).nr =
                    upsert s.nr (reg v).shortName
                      (a.set (List.indexOf (reg v).currentRelease
                        (jsSortStrings (reg v).releases))
                        (some (reg v).currentRelease)) := by
                  simp [convStep, hb, hnr]
                rw [hstep, alookup_upsert, if_neg hs]
          rw [ih (convStep reg s v)
            (fun w hw => hkR w (List.mem_cons_of_mem v hw)), hlk]
      · have hb' : (reg v).hasNumberedReleases = false :=
          Bool.not_eq_true _ ▸ (by simpa using hb)
        have hstep : (convStep reg s v).nr = s.nr := by
          simp [convStep, hb']
        rw [if_neg (fun hc => hb hc.2)]
        rw [ih (convStep reg s v)
          (fun w hw => hkR w (List.mem_cons_of_mem v hw)), hstep]

theorem foldl_convStep_fmv (reg : String → DocsVersion) (k : String) :
    ∀ (versions : List String) (s : ConvState),
      alookup k (versions.foldl (convStep reg) s).fmv =
        if versions.any (fun v =>
            decide ((reg v).shortName = k) && !(reg v).hasNumberedReleases) then
          some "*"
        else alookup k s.fmv := by
  intro versions
  induction versions with
  | nil => intro s; rfl
  | cons v t ih =>
      intro s
      rw [List.foldl_cons, List.any_cons, ih]
      by_cases hb : (reg v).hasNumberedReleases = true
      · have hfmv : (convStep reg s v).fmv = s.fmv := by
          simp only [convStep, hb, Bool.not_true, Bool.false_eq_true, if_false]
          cases alookup (reg v).shortName s.nr <;> rfl
        simp [hb, hfmv]
      · have hb' : (reg v).hasNumberedReleases = false := by
          simpa using hb
        have hfmv : (convStep reg s v).fmv = upsert s.fmv (reg v).shortName "*" := by
          simp [convStep, hb']
        by_cases hs : (reg v).shortName = k
        · simp [hb', hs, hfmv, alookup_upsert]
        · simp [hb', hs, hfmv, alookup_upsert]

theorem foldl_convStep_nr_keys_nodup (reg : String → DocsVersion) :
    ∀ (versions : List String) (s : ConvState),
      ((s.nr.map Prod.fst).Nodup) →
      (((versions.foldl (convStep reg) s).nr.map Prod.fst).Nodup) := by
  intro versions
  induction versions with
  | nil => intro s h; exact h
  | cons v t ih =>
      intro s h
      rw [List.foldl_cons]
      apply ih
      by_cases hb : (reg v).hasNumberedReleases = true
      · cases hnr : alookup (reg v).shortName s.nr with
        | none =>
            have hstep : (convStep reg s v).nr = s.nr ++
                [((reg v).shortName,
                  (List.replicate (jsSortStrings (reg v).releases).length
                    (none : Option String)).set
                    (List.indexOf (reg v).currentRelease
                      (jsSortStrings (reg v).releases))
                    (some (reg v).currentRelease))] := by
              simp [convStep, hb, hnr]
            rw [hstep]
            have hmem : (reg v).shortName ∉ s.nr.map Prod.fst := by
              rw [← alookup_isSome_iff_mem_keys, hnr]
              simp
            simp [List.nodup_append, h, hmem]
        | some a =>
            have hstep : (convStep reg s v).nr =
                upsert s.nr (reg v).shortName
                  (a.set (List.indexOf (reg v).currentRelease
                    (jsSortStrings (reg v).releases))
                    (some (reg v).currentRelease)) := by
              simp [convStep, hb, hnr]
            rw [hstep]
            exact upsert_keys_nodup _ _ _ h
      · have hb' : (reg v).hasNumberedReleases = false := by simpa using hb
        have hstep : (convStep reg s v).nr = s.nr := by
          simp [convStep, hb']
        rw [hstep]
        exact h

theorem alookup_foldl_upsert_lineValue (k : String) :
    ∀ (nr : List (String × List (Option String)))
      (fmv : List (String × String)),
      ((nr.map Prod.fst).Nodup) →
      alookup k (nr.foldl (fun acc p => upsert acc p.1 (lineValue p.2)) fmv) =
        match alookup k nr with
        | some a => some (lineValue a)
        | none => alookup k fmv := by
  intro nr
  induction nr with
  | nil => intro fmv _; rfl
  | cons p t ih =>
      intro fmv hnd
      simp only [List.map_cons, List.nodup_cons] at hnd
      rw [List.foldl_cons, ih _ hnd.2]
      by_cases hp : p.1 = k
      · have ht : alookup k t = none := by
          cases h2 : alookup k t with
          | none => rfl
          | some w =>
              exfalso
              apply hnd.1
              rw [hp]
              rw [← alookup_isSome_iff_mem_keys, h2]
              rfl
        rw [ht]
        simp [alookup, hp, alookup_upsert]
      · cases h2 : alookup k t with
        | some w => simp [alookup, hp, h2]
        | none => simp [alookup, hp, h2, alookup_upsert]

theorem alookup_convert_eq_fmv2 (reg : String → DocsVersion)
    (versions : List String) (k : String) :
    alookup k (convertVersionsToFrontmatter reg versions) =
      alookup k ((versions.foldl (convStep reg) ⟨[], []⟩).nr.foldl
        (fun acc p => upsert acc p.1 (lineValue p.2))
        (versions.foldl (convStep reg) ⟨[], []⟩).fmv) := by
  unfold convertVersionsToFrontmatter
  rw [alookup_map_pair]
  have hperm : ∀ a : String, a ∈ jsSortStrings
      (((versions.foldl (convStep reg) ⟨[], []⟩).nr.foldl
        (fun acc p => upsert acc p.1 (lineValue p.2))
        (versions.foldl (convStep reg) ⟨[], []⟩).fmv).map Prod.fst) ↔
      a ∈ ((versions.foldl (convStep reg) ⟨[], []⟩).nr.foldl
        (fun acc p => upsert acc p.1 (lineValue p.2))
        (versions.foldl (convStep reg) ⟨[], []⟩).fmv).map Prod.fst := by
    intro a
    exact (jsSortStrings_perm _).mem_iff
  by_cases hmem : (alookup k ((versions.foldl (convStep reg) ⟨[], []⟩).nr.foldl
      (fun acc p => upsert acc p.1 (lineValue p.2))
      (versions.foldl (convStep reg) ⟨[], []⟩).fmv)).isSome
  · rw [if_pos ((hperm k).mpr ((alookup_isSome_iff_mem_keys _ _).mp hmem))]
    cases h2 : alookup k ((versions.foldl (convStep reg) ⟨[], []⟩).nr.foldl
        (fun acc p => upsert acc p.1 (lineValue p.2))
        (versions.foldl (convStep reg) ⟨[], []⟩).fmv) with
    | some w => simp [h2]
    | none => rw [h2] at hmem; simp at hmem
  · have hnm : k ∉ ((versions.foldl (convStep reg) ⟨[], []⟩).nr.foldl
        (fun acc p => upsert acc p.1 (lineValue p.2))
        (versions.foldl (convStep reg) ⟨[], []⟩).fmv).map Prod.fst :=
      fun hc => hmem ((alookup_isSome_iff_mem_keys _ _).mpr hc)
    rw [if_neg (fun hc => hnm ((hperm k).mp hc))]
    cases h2 : alookup k ((versions.foldl (convStep reg) ⟨[], []⟩).nr.foldl
        (fun acc p => upsert acc p.1 (lineValue p.2))
        (versions.foldl (convStep reg) ⟨[], []⟩).fmv) with
    | some w => rw [h2] at hmem; simp at hmem
    | none => rfl

theorem alookup_convert (reg : String → DocsVersion) (versions : List String)
    (k : String) (R : List String)
    (hkR : ∀ v ∈ versions, (reg v).shortName = k →
      (reg v).hasNumberedReleases = true → (reg v).releases = R) :
    alookup k (convertVersionsToFrontmatter reg versions) =
      match lineAccum (jsSortStrings R) none (linePresent reg versions k) with
      | some a => some (lineValue a)
      | none =>
          if versions.any (fun v =>
              decide ((reg v).shortName = k) && !(reg v).hasNumberedReleases) then
            some "*"
          else none := by
  rw [alookup_convert_eq_fmv2,
    alookup_foldl_upsert_lineValue k _ _
      (foldl_convStep_nr_keys_nodup reg versions ⟨[], []⟩ (by simp)),
    foldl_convStep_nr reg k R versions ⟨[], []⟩ hkR,
    foldl_convStep_fmv reg k versions ⟨[], []⟩]
  rfl

/-- The central bridge for the range-compaction claims: for a numbered line
`k` whose tags all carry the release list `R`, the value emitted by
`convertVersionsToFrontmatter` at key `k` is `lineValue` of the sparse
positional array determined by membership alone. -/
theorem convert_lookup_numbered (reg : String → DocsVersion)
    (versions : List String) (k : String) (R : List String)
    (hk : ∀ v ∈ versions, (reg v).shortName = k →
      (reg v).hasNumberedReleases = true ∧ (reg v).releases = R)
    (hnd : (jsSortStrings R).Nodup)
    (hocc : linePresent reg versions k ≠ []) :
    alookup k (convertVersionsToFrontmatter reg versions) =
      some (lineValue
        (markPresent (jsSortStrings R) (linePresent reg versions k))) := by
  rw [alookup_convert reg versions k R
    (fun v hv hs _ => (hk v hv hs).2),
    lineAccum_eq_markPresent _ _ hnd hocc]

/-! ### The continuity check -/

theorem dropWhile_eq_self_of_all_neg {α : Type} (p : α → Bool)
    (m : List α) (h : ∀ y ∈ m, p y = false) : m.dropWhile p = m := by
  cases m with
  | nil => rfl
  | cons x t =>
      rw [List.dropWhile_cons, h x (List.mem_cons_self x t)]
      simp

theorem check_decomp (l : List (Option String))
    (h : checkVersionContinuity l = true) :
    ∃ a b c, l = a ++ b ++ c ∧ (∀ x ∈ a, jsTruthy x = false) ∧
      (∀ x ∈ b, jsTruthy x = true) ∧ (∀ x ∈ c, jsTruthy x = false) := by
  unfold checkVersionContinuity at h
  simp only at h
  set t := l.dropWhile (fun o => !(jsTruthy o)) with ht
  set b' := t.reverse.dropWhile (fun o => !(jsTruthy o)) with hb'
  refine ⟨l.takeWhile (fun o => !(jsTruthy o)), b'.reverse,
    (t.reverse.takeWhile (fun o => !(jsTruthy o))).reverse, ?_, ?_, ?_, ?_⟩
  · have h1 : l = l.takeWhile (fun o => !(jsTruthy o)) ++ t := by
      rw [ht, List.takeWhile_append_dropWhile]
    have h2 : t.reverse = t.reverse.takeWhile (fun o => !(jsTruthy o)) ++ b' := by
      rw [hb', List.takeWhile_append_dropWhile]
    have h3 : t = b'.reverse ++
        (t.reverse.takeWhile (fun o => !(jsTruthy o))).reverse := by
      have := congrArg List.reverse h2
      simpa using this
    rw [List.append_assoc, ← h3, ← h1]
  · intro x hx
    have := List.mem_takeWhile_imp hx
    simpa using this
  · intro x hx
    rw [List.all_eq_true] at h
    exact h x (by simpa using hx)
  · intro x hx
    have := List.mem_takeWhile_imp (List.mem_reverse.mp hx)
    simpa using this

theorem check_of_decomp (a b c : List (Option String))
    (ha : ∀ x ∈ a, jsTruthy x = false) (hb : ∀ x ∈ b, jsTruthy x = true)
    (hc : ∀ x ∈ c, jsTruthy x = false) :
    checkVersionContinuity (a ++ b ++ c) = true := by
  unfold checkVersionContinuity
  simp only
  have hda : (a ++ b ++ c).dropWhile (fun o => !(jsTruthy o)) =
      (b ++ c).dropWhile (fun o => !(jsTruthy o)) := by
    rw [List.append_assoc, List.dropWhile_append]
    have : a.dropWhile (fun o => !(jsTruthy o)) = [] := by
      rw [List.dropWhile_eq_nil_iff]
      intro x hx
      simp [ha x hx]
    simp [this]
  rw [hda]
  cases b with
  | nil =>
      have : c.dropWhile (fun o => !(jsTruthy o)) = [] := by
        rw [List.dropWhile_eq_nil_iff]
        intro x hx
        simp [hc x hx]
      simp [this]
  | cons x b2 =>
      have hx : jsTruthy x = true := hb x (List.mem_cons_self x b2)
      have hd1 : (x :: (b2 ++ c)).dropWhile (fun o => !(jsTruthy o)) =
          x :: (b2 ++ c) :=
        List.dropWhile_cons_of_neg (by simp [hx])
      simp only [List.cons_append]
      rw [hd1]
      have hrev : (x :: (b2 ++ c)).reverse =
          c.reverse ++ (x :: b2).reverse := by
        simp
      rw [hrev, List.dropWhile_append]
      have hcnil : c.reverse.dropWhile (fun o => !(jsTruthy o)) = [] := by
        rw [List.dropWhile_eq_nil_iff]
        intro y hy
        simp [hc y (List.mem_reverse.mp hy)]
      have hbself : (x :: b2).reverse.dropWhile (fun o => !(jsTruthy o)) =
          (x :: b2).reverse := by
        apply dropWhile_eq_self_of_all_neg
        intro y hy
        simp [hb y (List.mem_reverse.mp hy)]
      simp only [hcnil, List.isEmpty_nil, if_true, hbself]
      rw [List.all_eq_true]
      intro y hy
      exact hb y (by simpa using hy)

/-! ### Per-line emission lemmas -/

theorem lineRange_render (a : List (Option String)) :
    (lineRange a).render = lineValue a := by
  unfold lineRange lineValue
  by_cases h1 : a.all jsTruthy
  · simp [h1, RangeExpr.render]
  · by_cases h2 : checkVersionContinuity a
    · have hmap : ((if !(jsTruthy (a.getLast?.getD none)) then
            [Comparator.le ((truthyVals a).getLast?.getD "undefined")]
          else []) ++
          (if !(jsTruthy (a.head?.getD none)) then
            [Comparator.ge ((truthyVals a).head?.getD "undefined")]
          else [])).map Comparator.render =
          (if !(jsTruthy (a.getLast?.getD none)) then
            ["<=" ++ ((truthyVals a).getLast?.getD "undefined")]
          else []) ++
          (if !(jsTruthy (a.head?.getD none)) then
            [">=" ++ ((truthyVals a).head?.getD "undefined")]
          else []) := by
        rw [List.map_append]
        congr 1 <;> split <;> simp [Comparator.render]
      simp only [h1, h2, Bool.not_true, Bool.false_eq_true, if_false,
        RangeExpr.render, hmap]
    · simp [h1, h2, RangeExpr.render]

theorem truthyVals_markPresent (ordered present : List String)
    (hε : "" ∉ ordered) :
    truthyVals (markPresent ordered present) =
      ordered.filter (fun r => decide (r ∈ present)) := by
  induction ordered with
  | nil => rfl
  | cons r t ih =>
      have hr : ¬ (r = "") := fun he => hε (by rw [he]; exact List.mem_cons_self _ _)
      have ht : "" ∉ t := fun hc => hε (List.mem_cons_of_mem r hc)
      by_cases hm : r ∈ present
      · simp [markPresent, truthyVals, List.filterMap_cons, jsTruthy, hm, hr,
          List.filter_cons] at ih ⊢
        exact ih ht
      · simp [markPresent, truthyVals, List.filterMap_cons, jsTruthy, hm,
          List.filter_cons] at ih ⊢
        exact ih ht

theorem all_truthy_markPresent (ordered present : List String)
    (hε : "" ∉ ordered) :
    (markPresent ordered present).all jsTruthy = true ↔
      ∀ r ∈ ordered, r ∈ present := by
  rw [List.all_eq_true]
  constructor
  · intro h r hr
    have := h (if r ∈ present then some r else none)
      (by simp [markPresent]; exact ⟨r, hr, rfl⟩)
    by_cases hm : r ∈ present
    · exact hm
    · rw [if_neg hm] at this; simp [jsTruthy] at this
  · intro h x hx
    simp only [markPresent, List.mem_map] at hx
    obtain ⟨r, hr, hre⟩ := hx
    have hm : r ∈ present := h r hr
    rw [if_pos hm] at hre
    have hrε : ¬ (r = "") := fun he => hε (he ▸ hr)
    rw [← hre]
    simp [jsTruthy, hrε]

theorem truthy_zone_of_decomp (a b c : List (Option String))
    (ha : ∀ x ∈ a, jsTruthy x = false) (hc : ∀ x ∈ c, jsTruthy x = false)
    (i : Nat) (o : Option String) (hi : (a ++ b ++ c)[i]? = some o)
    (ho : jsTruthy o = true) :
    a.length ≤ i ∧ i < a.length + b.length := by
  constructor
  · by_contra hlt
    push_neg at hlt
    rw [List.append_assoc, List.getElem?_append_left hlt] at hi
    rw [ha o (List.getElem?_mem hi)] at ho
    exact absurd ho (by simp)
  · by_contra hge
    push_neg at hge
    have hge2 : (a ++ b).length ≤ i := by
      simpa using hge
    rw [List.getElem?_append_right hge2] at hi
    rw [hc o (List.getElem?_mem hi)] at ho
    exact absurd ho (by simp)

theorem check_false_of_pattern (u v w t : List (Option String))
    (x y z : Option String) (hx : jsTruthy x = true) (hy : jsTruthy y = false)
    (hz : jsTruthy z = true) :
    checkVersionContinuity (u ++ x :: (v ++ y :: (w ++ z :: t))) = false := by
  by_contra hcheck
  have hcheck2 : checkVersionContinuity (u ++ x :: (v ++ y :: (w ++ z :: t))) = true := by
    cases h2 : checkVersionContinuity (u ++ x :: (v ++ y :: (w ++ z :: t)))
    · exact absurd h2 hcheck
    · rfl
  obtain ⟨a, b, c, he, ha, hb, hc⟩ := check_decomp _ hcheck2
  have hex : (u ++ x :: (v ++ y :: (w ++ z :: t)))[u.length]? = some x := by
    rw [List.getElem?_append_right (Nat.le_refl _)]
    simp
  have hey : (u ++ x :: (v ++ y :: (w ++ z :: t)))[u.length + 1 + v.length]? =
      some y := by
    rw [List.getElem?_append_right (by omega)]
    have h1 : u.length + 1 + v.length - u.length = v.length + 1 := by omega
    rw [h1]
    show (x :: (v ++ y :: (w ++ z :: t)))[v.length + 1]? = some y
    rw [List.getElem?_cons_succ]
    rw [List.getElem?_append_right (Nat.le_refl _)]
    simp
  have hez : (u ++ x :: (v ++ y :: (w ++ z :: t)))[u.length + 1 + v.length + 1 +
      w.length]? = some z := by
    rw [List.getElem?_append_right (by omega)]
    have h1 : u.length + 1 + v.length + 1 + w.length - u.length =
        v.length + 1 + w.length + 1 := by omega
    rw [h1]
    show (x :: (v ++ y :: (w ++ z :: t)))[v.length + 1 + w.length + 1]? = some z
    rw [List.getElem?_cons_succ]
    rw [List.getElem?_append_right (by omega)]
    have h2 : v.length + 1 + w.length - v.length = w.length + 1 := by
      omega
    rw [h2]
    show (y :: (w ++ z :: t))[w.length + 1]? = some z
    rw [List.getElem?_cons_succ]
    rw [List.getElem?_append_right (Nat.le_refl _)]
    simp
  rw [he] at hex hey hez
  have zx := truthy_zone_of_decomp a b c ha hc _ _ hex hx
  have zz := truthy_zone_of_decomp a b c ha hc _ _ hez hz
  -- y sits strictly between two positions inside the truthy block `b`,
  -- hence inside `b` itself, contradicting its falsiness
  have hyzone : a.length ≤ u.length + 1 + v.length ∧
      u.length + 1 + v.length < a.length + b.length := by
    constructor
    · omega
    · omega
  have hyb : y ∈ b := by
    have h1 : (a ++ b ++ c)[u.length + 1 + v.length]? = some y := hey
    rw [List.append_assoc, List.getElem?_append_right (by omega)] at h1
    rw [List.getElem?_append_left (by omega)] at h1
    exact List.getElem?_mem h1
  rw [hb y hyb] at hy
  exact absurd hy (by simp)

theorem markPresent_append (l₁ l₂ present : List String) :
    markPresent (l₁ ++ l₂) present =
      markPresent l₁ present ++ markPresent l₂ present := by
  simp [markPresent]

theorem markPresent_absent (l present : List String)
    (h : ∀ r ∈ l, r ∉ present) :
    markPresent l present = List.replicate l.length none := by
  unfold markPresent
  rw [← List.map_const']
  apply List.map_congr_left
  intro r hr
  simp [h r hr]

theorem markPresent_covered (l present : List String)
    (h : ∀ r ∈ l, r ∈ present) :
    markPresent l present = l.map some := by
  unfold markPresent
  apply List.map_congr_left
  intro r hr
  simp [h r hr]

theorem lineRange_star (ordered present : List String) (hε : "" ∉ ordered)
    (hall : ∀ r ∈ ordered, r ∈ present) :
    lineRange (markPresent ordered present) = .star := by
  unfold lineRange
  rw [if_pos ((all_truthy_markPresent ordered present hε).mpr hall)]

theorem truthyVals_decomp (A B C present : List String)
    (hε : "" ∉ A ++ B ++ C)
    (hA : ∀ r ∈ A, r ∉ present) (hBm : ∀ r ∈ B, r ∈ present)
    (hC : ∀ r ∈ C, r ∉ present) :
    truthyVals (markPresent (A ++ B ++ C) present) = B := by
  rw [truthyVals_markPresent _ _ hε, List.filter_append, List.filter_append]
  have h1 : A.filter (fun r => decide (r ∈ present)) = [] := by
    rw [List.filter_eq_nil_iff]
    intro r hr
    simp [hA r hr]
  have h2 : B.filter (fun r => decide (r ∈ present)) = B := by
    rw [List.filter_eq_self]
    intro r hr
    simp [hBm r hr]
  have h3 : C.filter (fun r => decide (r ∈ present)) = [] := by
    rw [List.filter_eq_nil_iff]
    intro r hr
    simp [hC r hr]
  rw [h1, h2, h3]
  simp

theorem lineRange_decomp_bounds (A B C present : List String)
    (hε : "" ∉ A ++ B ++ C) (hB : B ≠ [])
    (hA : ∀ r ∈ A, r ∉ present) (hBm : ∀ r ∈ B, r ∈ present)
    (hC : ∀ r ∈ C, r ∉ present) (hole : A ≠ [] ∨ C ≠ []) :
    lineRange (markPresent (A ++ B ++ C) present) =
      .bounds ((if C = [] then [] else [.le (B.getLast hB)]) ++
               (if A = [] then [] else [.ge (B.head hB)])) := by
  have hAr : markPresent A present = List.replicate A.length none :=
    markPresent_absent A present hA
  have hBr : markPresent B present = B.map some :=
    markPresent_covered B present hBm
  have hCr : markPresent C present = List.replicate C.length none :=
    markPresent_absent C present hC
  have hBε : ∀ r ∈ B, ¬ (r = "") := by
    intro r hr he
    exact hε (by rw [← he]; simp [hr])
  -- the `*` branch is not taken
  have hstar : ¬ ((markPresent (A ++ B ++ C) present).all jsTruthy = true) := by
    rw [all_truthy_markPresent _ _ hε]
    intro hall
    rcases hole with h | h
    · cases A with
      | nil => exact absurd rfl h
      | cons r t => exact hA r (List.mem_cons_self r t) (hall r (by simp))
    · cases C with
      | nil => exact absurd rfl h
      | cons r t => exact hC r (List.mem_cons_self r t) (hall r (by simp))
  -- the continuity test succeeds
  have hcont : checkVersionContinuity (markPresent (A ++ B ++ C) present) = true := by
    rw [markPresent_append, markPresent_append]
    apply check_of_decomp
    · intro x hx
      rw [hAr] at hx
      rw [List.eq_of_mem_replicate hx]
      rfl
    · intro x hx
      rw [hBr] at hx
      rw [List.mem_map] at hx
      obtain ⟨r, hr, hre⟩ := hx
      rw [← hre]
      simp [jsTruthy, hBε r hr]
    · intro x hx
      rw [hCr] at hx
      rw [List.eq_of_mem_replicate hx]
      rfl
  have hT : truthyVals (markPresent (A ++ B ++ C) present) = B :=
    truthyVals_decomp A B C present hε hA hBm hC
  -- last cell: a hole exactly when `C` is nonempty
  have hlast : (markPresent (A ++ B ++ C) present).getLast?.getD none =
      if C = [] then some (B.getLast hB) else none := by
    rw [markPresent_append, markPresent_append, List.getLast?_append,
      List.getLast?_append]
    by_cases hCc : C = []
    · subst hCc
      rw [hCr, hBr]
      simp only [List.length_nil, List.replicate_zero, List.getLast?_nil,
        Option.none_or, List.getLast?_map, List.getLast?_eq_getLast B hB]
      simp
    · rw [hCr, List.getLast?_replicate]
      have hCl : ¬ (C.length = 0) := fun h => hCc (List.length_eq_zero.mp h)
      simp [hCc, hCl]
  -- first cell: a hole exactly when `A` is nonempty
  have hhead : (markPresent (A ++ B ++ C) present).head?.getD none =
      if A = [] then some (B.head hB) else none := by
    rw [markPresent_append, markPresent_append, List.head?_append,
      List.head?_append]
    by_cases hAc : A = []
    · subst hAc
      rw [hAr, hBr]
      simp only [List.length_nil, List.replicate_zero, List.head?_nil,
        Option.none_or, List.head?_map, List.head?_eq_head hB]
      simp
    · rw [hAr, List.head?_replicate]
      have hAl : ¬ (A.length = 0) := fun h => hAc (List.length_eq_zero.mp h)
      simp [hAc, hAl]
  unfold lineRange
  rw [if_neg hstar, hcont]
  simp only [Bool.not_true, Bool.false_eq_true, if_false]
  congr 1
  congr 1
  · rw [hlast, hT]
    by_cases hCc : C = []
    · simp [hCc, jsTruthy, hBε (B.getLast hB) (List.getLast_mem hB)]
    · simp only [hCc, if_neg hCc, jsTruthy, Bool.not_false, if_true]
      rw [List.getLast?_eq_getLast B hB]
      simp
  · rw [hhead, hT]
    by_cases hAc : A = []
    · simp [hAc, jsTruthy, hBε (B.head hB) (List.head_mem hB)]
    · simp only [hAc, if_neg hAc, jsTruthy, Bool.not_false, if_true]
      rw [List.head?_eq_head hB]
      simp

theorem lineRange_decomp_enum (P Q T present : List String) (x y q : String)
    (hε : "" ∉ P ++ x :: (Q ++ y :: T))
    (hx : x ∈ present) (hy : y ∈ present) (hq : q ∈ Q) (hqm : q ∉ present) :
    lineRange (markPresent (P ++ x :: (Q ++ y :: T)) present) =
      .enum (truthyVals (markPresent (P ++ x :: (Q ++ y :: T)) present)) := by
  have hstar : ¬ ((markPresent (P ++ x :: (Q ++ y :: T)) present).all jsTruthy
      = true) := by
    rw [all_truthy_markPresent _ _ hε]
    intro hall
    exact hqm (hall q (by simp [hq]))
  obtain ⟨Q₁, Q₂, hQ⟩ := List.append_of_mem hq
  have hxε : ¬ (x = "") := fun he => hε (by rw [← he]; simp)
  have hyε : ¬ (y = "") := fun he => hε (by rw [← he]; simp)
  have hsplit : markPresent (P ++ x :: (Q ++ y :: T)) present =
      markPresent P present ++ (some x) ::
        (markPresent Q₁ present ++ (none : Option String) ::
          (markPresent Q₂ present ++ (some y) :: markPresent T present)) := by
    rw [hQ]
    show markPresent (P ++ x :: ((Q₁ ++ q :: Q₂) ++ y :: T)) present = _
    have h1 : P ++ x :: ((Q₁ ++ q :: Q₂) ++ y :: T) =
        P ++ [x] ++ Q₁ ++ [q] ++ Q₂ ++ [y] ++ T := by
      simp
    rw [h1]
    rw [markPresent_append, markPresent_append, markPresent_append,
      markPresent_append, markPresent_append, markPresent_append]
    have hxm : markPresent [x] present = [some x] := by
      simp [markPresent, hx]
    have hqm2 : markPresent [q] present = [none] := by
      simp [markPresent, hqm]
    have hym : markPresent [y] present = [some y] := by
      simp [markPresent, hy]
    rw [hxm, hqm2, hym]
    simp
  have hcont : checkVersionContinuity
      (markPresent (P ++ x :: (Q ++ y :: T)) present) = false := by
    rw [hsplit]
    exact check_false_of_pattern _ _ _ _ _ _ _
      (by simp [jsTruthy, hxε]) (by simp [jsTruthy])
      (by simp [jsTruthy, hyε])
  unfold lineRange
  rw [if_neg hstar, hcont]
  simp

/-- A continuity-passing sparse array splits the ordered release list into a
prefix of absent releases, a present window, and a suffix of absent
releases. -/
theorem ordered_decomp_of_check (ordered present : List String)
    (hε : "" ∉ ordered)
    (hcont : checkVersionContinuity (markPresent ordered present) = true) :
    ∃ A B C, ordered = A ++ B ++ C ∧ (∀ r ∈ A, r ∉ present) ∧
      (∀ r ∈ B, r ∈ present) ∧ (∀ r ∈ C, r ∉ present) := by
  obtain ⟨a, b, c, he, ha, hb, hc⟩ := check_decomp _ hcont
  have hlen : ordered.length = a.length + b.length + c.length := by
    have h1 := congrArg List.length he
    simp [markPresent] at h1
    omega
  set A := ordered.take a.length with hA
  set BC := ordered.drop a.length with hBC
  set B := BC.take b.length with hB
  set C := BC.drop b.length with hC
  have hsplit : ordered = A ++ B ++ C := by
    rw [List.append_assoc, hB, hC, List.take_append_drop, hA, hBC,
      List.take_append_drop]
  have hlenA : A.length = a.length := by
    rw [hA, List.length_take]
    omega
  have hlenB : B.length = b.length := by
    rw [hB, List.length_take, hBC, List.length_drop]
    omega
  have hmp : markPresent A present ++ (markPresent B present ++
      markPresent C present) = a ++ (b ++ c) := by
    rw [← markPresent_append, ← markPresent_append, ← List.append_assoc,
      ← hsplit, he, List.append_assoc]
  have hinjA := List.append_inj hmp (by simp [markPresent, hlenA])
  have hinjB := List.append_inj hinjA.2 (by simp [markPresent, hlenB])
  refine ⟨A, B, C, hsplit, ?_, ?_, ?_⟩
  · intro r hr
    intro hrp
    have hcell : (some r : Option String) ∈ a := by
      rw [← hinjA.1]
      simp only [markPresent, List.mem_map]
      exact ⟨r, hr, by simp [hrp]⟩
    have := ha _ hcell
    have hrε : ¬ (r = "") := fun hrr =>
      hε (by rw [← hrr]; rw [hsplit]; simp [hr])
    simp [jsTruthy, hrε] at this
  · intro r hr
    by_cases hrp : r ∈ present
    · exact hrp
    · exfalso
      have hcell : (none : Option String) ∈ b := by
        rw [← hinjB.1]
        simp only [markPresent, List.mem_map]
        exact ⟨r, hr, by simp [hrp]⟩
      have := hb _ hcell
      simp [jsTruthy] at this
  · intro r hr
    intro hrp
    have hcell : (some r : Option String) ∈ c := by
      rw [← hinjB.2]
      simp only [markPresent, List.mem_map]
      exact ⟨r, hr, by simp [hrp]⟩
    have := hc _ hcell
    have hrε : ¬ (r = "") := fun hrr =>
      hε (by rw [← hrr]; rw [hsplit]; simp [hr])
    simp [jsTruthy, hrε] at this

theorem relIdx_middle (A B C : List String) (s : String) (hsA : s ∉ A)
    (hsB : s ∈ B) :
    relIdx (A ++ B ++ C) s = A.length + List.indexOf s B := by
  unfold relIdx
  rw [List.append_assoc, List.indexOf_append_of_not_mem hsA,
    List.indexOf_append_of_mem hsB]

theorem relIdx_left (A B C : List String) (s : String) (hsA : s ∈ A) :
    relIdx (A ++ B ++ C) s < A.length := by
  unfold relIdx
  rw [List.append_assoc, List.indexOf_append_of_mem hsA]
  exact List.indexOf_lt_length.mpr hsA

theorem relIdx_right (A B C : List String) (s : String) (hsA : s ∉ A)
    (hsB : s ∉ B) :
    relIdx (A ++ B ++ C) s = A.length + (B.length + List.indexOf s C) := by
  unfold relIdx
  rw [List.append_assoc, List.indexOf_append_of_not_mem hsA,
    List.indexOf_append_of_not_mem hsB]

theorem indexOf_head_eq_zero (B : List String) (hB : B ≠ []) :
    List.indexOf (B.head hB) B = 0 := by
  cases B with
  | nil => exact absurd rfl hB
  | cons b0 bt =>
      rw [List.head_cons]
      exact List.indexOf_cons_self b0 bt

theorem indexOf_getLast_nodup (B : List String) (hB : B ≠ [])
    (hndB : B.Nodup) :
    List.indexOf (B.getLast hB) B = B.length - 1 := by
  rw [List.getLast_eq_getElem B hB, List.indexOf_getElem hndB]

/-- Core semantic fact behind the range-expression invariant: over a
duplicate-free ordered release list, the expression `lineRange` emits for
the membership array selects exactly the present releases. -/
theorem lineRange_sat (ordered present : List String)
    (hnd : ordered.Nodup) (hε : "" ∉ ordered)
    (hne : ∃ r₀ ∈ ordered, r₀ ∈ present) (r : String) (hr : r ∈ ordered) :
    ((lineRange (markPresent ordered present)).sat ordered r = true ↔
      r ∈ present) := by
  by_cases hall : ∀ s ∈ ordered, s ∈ present
  · rw [lineRange_star ordered present hε hall]
    simp [RangeExpr.sat, hall r hr]
  · by_cases hcont : checkVersionContinuity (markPresent ordered present) = true
    · obtain ⟨A, B, C, hsplit, hA, hBm, hC⟩ :=
        ordered_decomp_of_check ordered present hε hcont
      have hB : B ≠ [] := by
        obtain ⟨r₀, h0o, h0p⟩ := hne
        intro hBe
        subst hBe
        rw [hsplit] at h0o
        simp at h0o
        rcases h0o with h | h
        · exact hA r₀ h h0p
        · exact hC r₀ h h0p
      have hole : A ≠ [] ∨ C ≠ [] := by
        push_neg at hall
        obtain ⟨r₁, h1o, h1p⟩ := hall
        rw [hsplit] at h1o
        simp at h1o
        rcases h1o with h | h | h
        · left; intro hAe; subst hAe; simp at h
        · exact absurd (hBm r₁ h) h1p
        · right; intro hCe; subst hCe; simp at h
      subst hsplit
      rw [lineRange_decomp_bounds A B C present hε hB hA hBm hC hole]
      -- nodup and disjointness bookkeeping
      have hndB : B.Nodup :=
        (List.Nodup.of_append_left hnd).of_append_right
      have hdisjA : List.Disjoint A (B ++ C) := by
        rw [List.append_assoc] at hnd
        exact List.disjoint_of_nodup_append hnd
      have hdisjBC : List.Disjoint B C := by
        rw [List.append_assoc] at hnd
        exact List.disjoint_of_nodup_append
          ((List.Nodup.of_append_right hnd))
      have hglB : B.getLast hB ∈ B := List.getLast_mem hB
      have hhdB : B.head hB ∈ B := List.head_mem hB
      have hglA : B.getLast hB ∉ A := fun hc =>
        hdisjA hc (List.mem_append_left C hglB)
      have hhdA : B.head hB ∉ A := fun hc =>
        hdisjA hc (List.mem_append_left C hhdB)
      have hsatgl : relIdx (A ++ B ++ C) (B.getLast hB) =
          A.length + (B.length - 1) :=
        (relIdx_middle A B C _ hglA hglB).trans
          (by rw [indexOf_getLast_nodup B hB hndB])
      have hsathd : relIdx (A ++ B ++ C) (B.head hB) = A.length :=
        (relIdx_middle A B C _ hhdA hhdB).trans
          (by rw [indexOf_head_eq_zero B hB]; omega)
      simp only [RangeExpr.sat, List.all_append, Bool.and_eq_true,
        List.all_eq_true]
      rw [List.mem_append] at hr
      rcases hr with hr | hr
      · rw [List.mem_append] at hr
        rcases hr with hr | hr
        · -- `r` lies in the absent prefix: the `>=` bound rejects it
          have hrA : A ≠ [] := by
            intro h; subst h; simp at hr
          have hlt : relIdx (A ++ B ++ C) r < A.length :=
            relIdx_left A B C r hr
          constructor
          · intro h
            have hge := h.2 (Comparator.ge (B.head hB))
              (by rw [if_neg hrA]; simp)
            simp only [Comparator.sat, decide_eq_true_eq, hsathd] at hge
            omega
          · intro h
            exact absurd h (hA r hr)
        · -- `r` lies in the present window: both bounds accept it
          have hrA2 : r ∉ A := fun hc =>
            hdisjA hc (List.mem_append_left C hr)
          have hidx : relIdx (A ++ B ++ C) r = A.length + List.indexOf r B :=
            relIdx_middle A B C r hrA2 hr
          have hidxlt : List.indexOf r B < B.length :=
            List.indexOf_lt_length.mpr hr
          constructor
          · intro _
            exact hBm r hr
          · intro _
            constructor
            · intro cmp hcmp
              split at hcmp
              · simp at hcmp
              · rw [List.mem_singleton] at hcmp
                subst hcmp
                simp only [Comparator.sat, decide_eq_true_eq, hsatgl, hidx]
                omega
            · intro cmp hcmp
              split at hcmp
              · simp at hcmp
              · rw [List.mem_singleton] at hcmp
                subst hcmp
                simp only [Comparator.sat, decide_eq_true_eq, hsathd, hidx]
                omega
      · -- `r` lies in the absent suffix: the `<=` bound rejects it
        have hrC : C ≠ [] := by
          intro h; subst h; simp at hr
        have hrA2 : r ∉ A := fun hc =>
          hdisjA hc (List.mem_append_right B hr)
        have hrB2 : r ∉ B := fun hc => hdisjBC hc hr
        have hidx : relIdx (A ++ B ++ C) r =
            A.length + (B.length + List.indexOf r C) :=
          relIdx_right A B C r hrA2 hrB2
        have hBpos : 0 < B.length := List.length_pos.mpr hB
        constructor
        · intro h
          have hle := h.1 (Comparator.le (B.getLast hB))
            (by rw [if_neg hrC]; simp)
          simp only [Comparator.sat, decide_eq_true_eq, hsatgl, hidx] at hle
          omega
        · intro h
          exact absurd h (hC r hr)
    · -- non-contiguous presence: the enumeration is evaluated directly
      have hstar : ¬ ((markPresent ordered present).all jsTruthy = true) := by
        rw [all_truthy_markPresent _ _ hε]
        exact hall
      have hcont2 : checkVersionContinuity (markPresent ordered present)
          = false := by
        cases h2 : checkVersionContinuity (markPresent ordered present)
        · rfl
        · exact absurd h2 hcont
      unfold lineRange
      rw [if_neg hstar, hcont2]
      simp only [Bool.not_false, if_true, RangeExpr.sat, List.any_eq_true,
        truthyVals_markPresent _ _ hε]
      constructor
      · intro ⟨x, hx, hxe⟩
        rw [List.mem_filter] at hx
        have : x = r := by simpa using hxe
        subst this
        simpa using hx.2
      · intro h
        exact ⟨r, List.mem_filter.mpr ⟨hr, by simpa using h⟩, by simp⟩

/-! ### Claims about the range compactor -/

/-- C1: for every VersionSet and numbered line occurring in it (all of whose
tags are numbered and share the release list `R`, with the sorted releases
duplicate-free, non-empty-string, and at least one contributed release
known), the RangeExpression `convertVersionsToFrontmatter` emits for that
line, evaluated against the line's ordered release list, selects exactly the
subset of releases present for that line — across all three output shapes. -/
theorem c1_emitted_expression_selects_present (reg : String → DocsVersion)
    (versions : List String) (k : String) (R : List String)
    (hk : ∀ v ∈ versions, (reg v).shortName = k →
      (reg v).hasNumberedReleases = true ∧ (reg v).releases = R)
    (hnd : (jsSortStrings R).Nodup) (hε : "" ∉ jsSortStrings R)
    (hocc : ∃ c ∈ linePresent reg versions k, c ∈ jsSortStrings R) :
    alookup k (convertVersionsToFrontmatter reg versions) =
      some ((lineRange (markPresent (jsSortStrings R)
        (linePresent reg versions k))).render) ∧
    ∀ r ∈ jsSortStrings R,
      ((lineRange (markPresent (jsSortStrings R)
        (linePresent reg versions k))).sat (jsSortStrings R) r = true ↔
        r ∈ linePresent reg versions k) := by
  have hocc2 : linePresent reg versions k ≠ [] := by
    obtain ⟨c, hc, _⟩ := hocc
    exact List.ne_nil_of_mem hc
  have hne : ∃ r₀ ∈ jsSortStrings R, r₀ ∈ linePresent reg versions k := by
    obtain ⟨c, hc, hcs⟩ := hocc
    exact ⟨c, hcs, hc⟩
  constructor
  · rw [convert_lookup_numbered reg versions k R hk hnd hocc2,
      lineRange_render]
  · intro r hr
    exact lineRange_sat _ _ hnd hε hne r hr

/-- C2: a numbered line whose present releases form a single contiguous
window `B` of the sorted release list `A ++ B ++ C` with at least one hole
(`A` or `C` non-empty) is emitted as bound terms — `<=lastPresent` exactly
when the final position is a hole, `>=firstPresent` exactly when the first
position is a hole, space-joined — and never as an enumeration. -/
theorem c2_contiguous_window_emits_bounds (reg : String → DocsVersion)
    (versions : List String) (k : String) (R A B C : List String)
    (hk : ∀ v ∈ versions, (reg v).shortName = k →
      (reg v).hasNumberedReleases = true ∧ (reg v).releases = R)
    (hnd : (jsSortStrings R).Nodup) (hε : "" ∉ jsSortStrings R)
    (hsplit : jsSortStrings R = A ++ B ++ C) (hB : B ≠ [])
    (hA : ∀ r ∈ A, r ∉ linePresent reg versions k)
    (hBm : ∀ r ∈ B, r ∈ linePresent reg versions k)
    (hC : ∀ r ∈ C, r ∉ linePresent reg versions k)
    (hole : A ≠ [] ∨ C ≠ []) :
    alookup k (convertVersionsToFrontmatter reg versions) =
      some (String.intercalate " "
        ((if C = [] then [] else ["<=" ++ B.getLast hB]) ++
         (if A = [] then [] else [">=" ++ B.head hB]))) := by
  have hocc2 : linePresent reg versions k ≠ [] := by
    cases hBc : B with
    | nil => exact absurd hBc hB
    | cons b0 bt =>
        exact List.ne_nil_of_mem (hBm b0 (by rw [hBc]; simp))
  rw [convert_lookup_numbered reg versions k R hk hnd hocc2,
    ← lineRange_render, hsplit,
    lineRange_decomp_bounds A B C _ (hsplit ▸ hε) hB hA hBm hC hole]
  simp only [RangeExpr.render]
  rw [List.map_append]
  congr 1
  congr 1
  congr 1
  · split <;> simp [Comparator.render]
  · split <;> simp [Comparator.render]

/-- C3: a numbered line with an interior hole — two present releases `x`, `y`
with an absent release `q` strictly between them in the sorted release
list — is emitted as one `=release` term per present release, joined by
`" || "`, in ascending (sorted-list) order. -/
theorem c3_interior_hole_emits_enumeration (reg : String → DocsVersion)
    (versions : List String) (k : String) (R P Q T : List String)
    (x y q : String)
    (hk : ∀ v ∈ versions, (reg v).shortName = k →
      (reg v).hasNumberedReleases = true ∧ (reg v).releases = R)
    (hnd : (jsSortStrings R).Nodup) (hε : "" ∉ jsSortStrings R)
    (hsplit : jsSortStrings R = P ++ x :: (Q ++ y :: T))
    (hx : x ∈ linePresent reg versions k)
    (hy : y ∈ linePresent reg versions k)
    (hq : q ∈ Q) (hqm : q ∉ linePresent reg versions k) :
    alookup k (convertVersionsToFrontmatter reg versions) =
      some (String.intercalate " || "
        (((jsSortStrings R).filter
          (fun r => decide (r ∈ linePresent reg versions k))).map
            (fun release => "=" ++ release))) := by
  have hocc2 : linePresent reg versions k ≠ [] :=
    List.ne_nil_of_mem hx
  rw [convert_lookup_numbered reg versions k R hk hnd hocc2,
    ← lineRange_render, hsplit,
    lineRange_decomp_enum P Q T _ x y q (hsplit ▸ hε) hx hy hq hqm]
  simp only [RangeExpr.render]
  rw [truthyVals_markPresent _ _ (hsplit ▸ hε)]

/-- C4: a VersionSet covering every known release of a numbered line makes
`convertVersionsToFrontmatter` emit `"*"` for that line — in particular a
line whose single present release is its only known release yields `"*"`,
never `=release`. -/
theorem c4_full_coverage_emits_star (reg : String → DocsVersion)
    (versions : List String) (k : String) (R : List String)
    (hk : ∀ v ∈ versions, (reg v).shortName = k →
      (reg v).hasNumberedReleases = true ∧ (reg v).releases = R)
    (hnd : (jsSortStrings R).Nodup) (hε : "" ∉ jsSortStrings R)
    (hocc : linePresent reg versions k ≠ [])
    (hcover : ∀ r ∈ R, r ∈ linePresent reg versions k) :
    alookup k (convertVersionsToFrontmatter reg versions) = some "*" := by
  rw [convert_lookup_numbered reg versions k R hk hnd hocc,
    ← lineRange_render,
    lineRange_star _ _ hε
      (fun r hr => hcover r ((jsSortStrings_perm R).mem_iff.mp hr))]
  rfl

theorem c1_witness :
    alookup "ghes" (convertVersionsToFrontmatter regEx
      ["enterprise-server@3.3", "enterprise-server@3.5"]) =
      some ((lineRange (markPresent (jsSortStrings ["3.3", "3.4", "3.5"])
        (linePresent regEx
          ["enterprise-server@3.3", "enterprise-server@3.5"] "ghes"))).render) ∧
    ∀ r ∈ jsSortStrings ["3.3", "3.4", "3.5"],
      ((lineRange (markPresent (jsSortStrings ["3.3", "3.4", "3.5"])
        (linePresent regEx
          ["enterprise-server@3.3", "enterprise-server@3.5"] "ghes"))).sat
          (jsSortStrings ["3.3", "3.4", "3.5"]) r = true ↔
        r ∈ linePresent regEx
          ["enterprise-server@3.3", "enterprise-server@3.5"] "ghes") :=
  c1_emitted_expression_selects_present regEx
    ["enterprise-server@3.3", "enterprise-server@3.5"] "ghes"
    ["3.3", "3.4", "3.5"] (by decide) (by decide) (by decide) (by decide)

theorem c2_witness :
    alookup "ghes" (convertVersionsToFrontmatter regEx
      ["enterprise-server@3.3", "enterprise-server@3.4"]) =
      some (String.intercalate " "
        ((if (["3.5"] : List String) = [] then [] else
          ["<=" ++ (["3.3", "3.4"] : List String).getLast (by decide)]) ++
         (if ([] : List String) = [] then [] else
          [">=" ++ (["3.3", "3.4"] : List String).head (by decide)]))) :=
  c2_contiguous_window_emits_bounds regEx
    ["enterprise-server@3.3", "enterprise-server@3.4"] "ghes"
    ["3.3", "3.4", "3.5"] [] ["3.3", "3.4"] ["3.5"]
    (by decide) (by decide) (by decide) (by decide) (by decide)
    (by decide) (by decide) (by decide) (by decide)

theorem c3_witness :
    alookup "ghes" (convertVersionsToFrontmatter regEx
      ["enterprise-server@3.3", "enterprise-server@3.5"]) =
      some (String.intercalate " || "
        (((jsSortStrings ["3.3", "3.4", "3.5"]).filter
          (fun r => decide (r ∈ linePresent regEx
            ["enterprise-server@3.3", "enterprise-server@3.5"] "ghes"))).map
            (fun release => "=" ++ release))) :=
  c3_interior_hole_emits_enumeration regEx
    ["enterprise-server@3.3", "enterprise-server@3.5"] "ghes"
    ["3.3", "3.4", "3.5"] [] ["3.4"] [] "3.3" "3.5" "3.4"
    (by decide) (by decide) (by decide)
    (by decide) (by decide) (by decide) (by decide) (by decide)

theorem c4_witness :
    alookup "ghes" (convertVersionsToFrontmatter regExSingle
      ["enterprise-server@3.3"]) = some "*" :=
  c4_full_coverage_emits_star regExSingle ["enterprise-server@3.3"] "ghes"
    ["3.3"] (by decide) (by decide) (by decide) (by decide) (by decide)

/-! ### Claims about `updateIndexFile` -/

/-- C10: when the index page's children list already contains the reference
`/basename(targetPath)`, `updateIndexFile(targetPath, add)` appends the same
reference again — the resulting list holds it (at least) twice, with no
deduplication or membership check. -/
theorem c10_add_appends_duplicate_reference (frontmatterDefaults : FmData)
    (fs : FS) (file : FsPath) (pg : Page) (cs : List String)
    (hpg : alookup (dirname file ++ ["index.md"]) fs.pages = some pg)
    (hch : alookup "children" pg.data = some (FmVal.strList cs))
    (href : ("/" ++ stripMd (basename file)) ∈ cs) :
    updateIndexFile frontmatterDefaults fs file "add" FmVal.null =
      .ok (writePage fs (dirname file ++ ["index.md"])
        ⟨upsert pg.data "children"
          (FmVal.strList (cs ++ ["/" ++ stripMd (basename file)])),
          pg.content⟩) ∧
    2 ≤ (cs ++ ["/" ++ stripMd (basename file)]).count
        ("/" ++ stripMd (basename file)) := by
  constructor
  · have hex : existsSync fs (dirname file ++ ["index.md"]) = true := by
      unfold existsSync
      rw [hpg]
      simp
    simp [updateIndexFile, hex, hpg, updateIndexData, hch]
  · rw [List.count_append]
    have h1 : 1 ≤ cs.count ("/" ++ stripMd (basename file)) :=
      List.one_le_count_iff.mpr href
    have h2 : (["/" ++ stripMd (basename file)]).count
        ("/" ++ stripMd (basename file)) = 1 :=
      List.count_singleton_self _
    omega

theorem c10_witness :
    updateIndexFile [] ⟨[(["content", "rest", "index.md"],
        ⟨[("children", FmVal.strList ["/boops"])], "body"⟩)],
      [["content"], ["content", "rest"]]⟩
      ["content", "rest", "boops.md"] "add" FmVal.null =
      .ok (writePage ⟨[(["content", "rest", "index.md"],
        ⟨[("children", FmVal.strList ["/boops"])], "body"⟩)],
      [["content"], ["content", "rest"]]⟩ (dirname ["content", "rest", "boops.md"] ++ ["index.md"])
        ⟨upsert [("children", FmVal.strList ["/boops"])] "children"
          (FmVal.strList (["/boops"] ++
            ["/" ++ stripMd (basename ["content", "rest", "boops.md"])])),
          "body"⟩) ∧
    2 ≤ ((["/boops"] : List String) ++
        ["/" ++ stripMd (basename (["content", "rest", "boops.md"] : FsPath))]).count
        ("/" ++ stripMd (basename (["content", "rest", "boops.md"] : FsPath))) :=
  c10_add_appends_duplicate_reference []
    ⟨[(["content", "rest", "index.md"],
        ⟨[("children", FmVal.strList ["/boops"])], "body"⟩)],
      [["content"], ["content", "rest"]]⟩
    ["content", "rest", "boops.md"]
    ⟨[("children", FmVal.strList ["/boops"])], "body"⟩ ["/boops"]
    (by decide) (by decide) (by decide)

/-- C5 (code evaluation): when the reference to remove is absent from the
children list, `updateIndexFile(..., remove)` does not fail — but
`children.indexOf` yields `-1` and `splice(-1, 1)` deletes the **last**
child: the list `["/a", "/b"]` becomes `["/a"]` although `/c` was the
target.  This refutes the specified no-op and is the latent bug behind the
claim. -/
theorem c5_remove_absent_reference_drops_last_child :
    updateIndexFile [] ⟨[(["content", "rest", "index.md"],
        ⟨[("children", FmVal.strList ["/a", "/b"])], "body"⟩)],
      [["content"], ["content", "rest"]]⟩
      ["content", "rest", "c.md"] "remove" FmVal.null =
      .ok ⟨[(["content", "rest", "index.md"],
        ⟨[("children", FmVal.strList ["/a"])], "body"⟩)],
      [["content"], ["content", "rest"]]⟩ ∧
    ("/c" ∈ (["/a", "/b"] : List String)) = False := by
  constructor
  · rfl
  · simp

/-- C9 (code evaluation, sequential model): projecting the new page
`content/rest/newcat/sub.md` when `content/rest/newcat` does not exist
creates the directory, appends `/newcat` to the parent index, writes the
page, and synthesizes the new directory's index with the single child
`/sub`.  This is the program order of the three steps; the source, however,
invokes both `updateIndexFile` calls of this loop WITHOUT `await` (lines 71
and 74, unlike the awaited call on line 51), so the parent-index write is
only started — not completed — before the page is written. -/
theorem c9_directory_introduction_eval :
    updateMarkdownFiles [("autogenerated", FmVal.str "rest")]
      [(["content", "rest", "newcat", "sub.md"],
        [("title", FmVal.str "sub"), ("versions", FmVal.vmap [("fpt", "*")]),
         ("autogenerated", FmVal.str "rest")])]
      ⟨[(["content", "rest", "index.md"],
          ⟨[("children", FmVal.strList ["/other"])], ""⟩)],
        [["content"], ["content", "rest"]]⟩ =
      .ok ⟨[(["content", "rest", "index.md"],
          ⟨[("children", FmVal.strList ["/other", "/newcat"])], ""⟩),
        (["content", "rest", "newcat", "sub.md"],
          ⟨[("title", FmVal.str "sub"), ("versions", FmVal.vmap [("fpt", "*")]),
            ("autogenerated", FmVal.str "rest")], ""⟩),
        (["content", "rest", "newcat", "index.md"],
          ⟨[("title", FmVal.str "newcat"), ("shortTitle", FmVal.str "newcat"),
            ("intro", FmVal.str ""), ("versions", FmVal.vmap [("fpt", "*")]),
            ("autogenerated", FmVal.str "rest"),
            ("children", FmVal.strList ["/sub"])], ""⟩)],
        [["content"], ["content", "rest"], ["content", "rest", "newcat"]]⟩ := by
  rfl

/-! ### Reconciler support lemmas -/

theorem alookup_filter_key {β : Type} (l : List (FsPath × β))
    (pred : FsPath × β → Bool) (p : FsPath → Bool)
    (hpred : ∀ e, pred e = p e.1) (q : FsPath) :
    alookup q (l.filter pred) = if p q then alookup q l else none := by
  induction l with
  | nil => simp [alookup]
  | cons e t ih =>
      by_cases he : e.1 = q
      · subst he
        by_cases hp : p e.1
        · simp [alookup, hp, List.filter_cons, hpred, ih]
        · simp only [List.filter_cons]
          rw [hpred e, if_neg (by simpa using hp)]
          rw [ih]
          simp [hp]
      · by_cases hp : pred e
        · simp only [List.filter_cons]
          rw [if_pos (by simpa using hp)]
          simp [alookup, he, ih]
        · simp only [List.filter_cons]
          rw [if_neg (by simpa using hp)]
          rw [ih]
          by_cases hq : p q
          · simp [hq, alookup, he]
          · simp [hq]

theorem rimraf_pages_lookup (fs : FS) (d : FsPath) (q : FsPath) :
    alookup q (rimraf fs d).pages =
      if isUnder d q then none else alookup q fs.pages := by
  unfold rimraf
  simp only
  rw [alookup_filter_key fs.pages _ (fun r => !(isUnder d r)) (fun e => rfl) q]
  by_cases h : isUnder d q <;> simp [h]

theorem startsWithList_self {α : Type} [DecidableEq α] (l : List α) :
    startsWithList l l = true := by
  induction l with
  | nil => rfl
  | cons a t ih => simp [startsWithList, ih]

theorem startsWithList_append {α : Type} [DecidableEq α] (l r : List α) :
    startsWithList l (l ++ r) = true := by
  induction l with
  | nil => cases r <;> rfl
  | cons a t ih => simp [startsWithList, ih]

theorem containsSeg_append_both {α : Type} [DecidableEq α]
    (sub a b : List α) : containsSeg sub (a ++ (sub ++ b)) = true := by
  induction a with
  | nil =>
      simp only [List.nil_append]
      cases hs : sub ++ b with
      | nil =>
          have hsub : sub = [] := by
            cases sub with
            | nil => rfl
            | cons x t => simp at hs
          subst hsub
          rfl
      | cons x t =>
          unfold containsSeg
          rw [← hs, startsWithList_append]
          simp
  | cons c a2 ih =>
      rw [List.cons_append]
      show (startsWithList sub (c :: (a2 ++ (sub ++ b))) ||
        containsSeg sub (a2 ++ (sub ++ b))) = true
      rw [ih]
      simp

theorem pathString_mem_split (p : FsPath) (x : String) (hx : x ∈ p) :
    ∃ u w : String, pathString p = u ++ (x ++ w) := by
  induction p with
  | nil => simp at hx
  | cons a t ih =>
      rcases List.mem_cons.mp hx with h | h
      · subst h
        by_cases ht : t = []
        · exact ⟨"", "", by simp [pathString, ht]⟩
        · refine ⟨"", "/" ++ pathString t, ?_⟩
          show (if t = [] then x else x ++ "/" ++ pathString t) = _
          rw [if_neg ht]
          simp [String.ext_iff]
      · obtain ⟨u, w, hw⟩ := ih h
        have ht : ¬ (t = []) := fun he => by
          subst he; simp at h
        refine ⟨a ++ "/" ++ u, w, ?_⟩
        show (if t = [] then a else a ++ "/" ++ pathString t) = _
        rw [if_neg ht, hw]
        simp [String.ext_iff]

/-- Any path segment shows up in the rendered path string, so a path whose
string avoids `"index.md"` has no segment equal to `"index.md"`. -/
theorem jsIncludes_of_mem_segment (p : FsPath) (x : String) (hx : x ∈ p) :
    jsIncludes (pathString p) x = true := by
  obtain ⟨u, w, hw⟩ := pathString_mem_split p x hx
  unfold jsIncludes
  rw [hw]
  rw [String.data_append, String.data_append]
  exact containsSeg_append_both x.data u.data w.data

theorem segment_ne_of_no_includes (p : FsPath) (x : String)
    (hni : ¬ (jsIncludes (pathString p) x = true)) : x ∉ p :=
  fun hx => hni (jsIncludes_of_mem_segment p x hx)

theorem basename_mem (p : FsPath) (hp : p ≠ []) : basename p ∈ p := by
  unfold basename
  rw [List.getLast?_eq_getLast p hp]
  exact List.getLast_mem hp

theorem basename_append_index (d : FsPath) :
    basename (d ++ ["index.md"]) = "index.md" := by
  unfold basename
  rw [List.getLast?_append]
  rfl

/-- `updateIndexFile` only ever writes the directory's `index.md`. -/
theorem updateIndexFile_shape (frontmatterDefaults : FmData) (fs : FS)
    (file : FsPath) (changeType : String) (versions : FmVal) (fs' : FS)
    (h : updateIndexFile frontmatterDefaults fs file changeType versions =
      .ok fs') :
    ∃ pg2 : Page, fs' = writePage fs (dirname file ++ ["index.md"]) pg2 := by
  unfold updateIndexFile at h
  simp only at h
  by_cases hex : existsSync fs (dirname file ++ ["index.md"])
  · rw [if_pos hex] at h
    cases hpg : alookup (dirname file ++ ["index.md"]) fs.pages with
    | none => rw [hpg] at h; exact absurd h (by simp)
    | some pg =>
        rw [hpg] at h
        simp only at h
        cases hud : updateIndexData pg.data changeType
            (stripMd (basename file)) with
        | error e => rw [hud] at h; exact absurd h (by simp)
        | ok d2 =>
            rw [hud] at h
            simp only [Except.ok.injEq] at h
            exact ⟨⟨d2, pg.content⟩, h.symm⟩
  · rw [if_neg hex] at h
    simp only at h
    cases hud : updateIndexData
        (newIndexData (basename (dirname file)) versions frontmatterDefaults)
        changeType (stripMd (basename file)) with
    | error e => rw [hud] at h; exact absurd h (by simp)
    | ok d2 =>
        rw [hud] at h
        simp only [Except.ok.injEq] at h
        exact ⟨⟨d2, ""⟩, h.symm⟩

theorem writePage_lookup (fs : FS) (p q : FsPath) (pg : Page) :
    alookup q (writePage fs p pg).pages =
      if p = q then some pg else alookup q fs.pages := by
  unfold writePage
  exact alookup_upsert fs.pages q p pg

theorem unlink_lookup (fs : FS) (file q : FsPath) :
    alookup q (fs.pages.filter (fun e => !(decide (e.1 = file)))) =
      if q = file then none else alookup q fs.pages := by
  rw [alookup_filter_key fs.pages _ (fun r => !(decide (r = file)))
    (fun e => rfl) q]
  by_cases h : q = file <;> simp [h]

theorem isUnder_iff (d p : FsPath) : isUnder d p = true ↔ p.take d.length = d := by
  unfold isUnder
  simp

theorem take_mem_subset (p : FsPath) (m : Nat) (x : String)
    (hx : x ∈ p.take m) : x ∈ p :=
  List.mem_of_mem_take hx

/-- While the page `p` (whose path string avoids `"index.md"`) and its
ancestor directories are in place, no directory on the way to `p` can look
like it holds only an `index.md`. -/
theorem entries_ne_singleton_index (fs1 : FS) (p : FsPath) (pg0 : Page)
    (d : FsPath)
    (hp : alookup p fs1.pages = some pg0)
    (hanc : ∀ m, 3 ≤ m → m < p.length → p.take m ∈ fs1.dirs)
    (hgood : jsIncludes (pathString p) "index.md" = false)
    (hdlen : 2 ≤ d.length)
    (hund : p.take d.length = d) (hlt : d.length < p.length) :
    ¬ (readdirEntries fs1 d = ["index.md"]) := by
  intro hent
  have hplen : 0 < p.length := by omega
  have hpne : p ≠ [] := by
    intro he; rw [he] at hplen; simp at hplen
  by_cases hdir : d.length + 1 = p.length
  · -- `p` itself is a direct child of `d`
    have hdp : dirname p = d := by
      unfold dirname
      rw [List.dropLast_eq_take, ← hund]
      congr 1
      omega
    have hmem : p ∈ fs1.pages.map Prod.fst :=
      (alookup_isSome_iff_mem_keys _ _).mp (by rw [hp]; rfl)
    have hbase : basename p ∈ readdirEntries fs1 d := by
      unfold readdirEntries
      apply List.mem_append_left
      rw [List.mem_filterMap]
      exact ⟨p, hmem, by rw [if_pos hdp]⟩
    rw [hent, List.mem_singleton] at hbase
    have : "index.md" ∈ p := by
      rw [← hbase]
      exact basename_mem p hpne
    exact absurd (jsIncludes_of_mem_segment p _ this) (by simp [hgood])
  · -- an intermediate directory of `p` is a child entry of `d`
    have hm : 3 ≤ d.length + 1 ∧ d.length + 1 < p.length := by omega
    have hdir2 : p.take (d.length + 1) ∈ fs1.dirs := hanc _ hm.1 hm.2
    have htlen : (p.take (d.length + 1)).length = d.length + 1 := by
      rw [List.length_take]
      omega
    have hdd : dirname (p.take (d.length + 1)) = d := by
      unfold dirname
      rw [List.dropLast_eq_take, htlen, List.take_take]
      have hmin : min (d.length + 1 - 1) (d.length + 1) = d.length := by
        omega
      rw [hmin, hund]
    have htne : p.take (d.length + 1) ≠ [] := by
      intro he
      have := congrArg List.length he
      rw [htlen] at this
      simp at this
    have hbase : basename (p.take (d.length + 1)) ∈ readdirEntries fs1 d := by
      unfold readdirEntries
      apply List.mem_append_right
      rw [List.mem_filterMap]
      exact ⟨p.take (d.length + 1), hdir2, by rw [if_pos hdd]⟩
    rw [hent, List.mem_singleton] at hbase
    have : "index.md" ∈ p := by
      rw [← hbase]
      exact take_mem_subset p _ _ (basename_mem _ htne)
    exact absurd (jsIncludes_of_mem_segment p _ this) (by simp [hgood])

theorem removeStep_lookup (dfl : FmData) (fs : FS) (f : FsPath) (fs' : FS)
    (h : removeStep dfl fs f = .ok fs') (q : FsPath)
    (hq : ¬ (basename q = "index.md")) :
    (alookup q fs'.pages = alookup q fs.pages ∨ alookup q fs'.pages = none) ∧
    (q = f → alookup q fs'.pages = none) := by
  unfold removeStep at h
  cases hf : alookup f fs.pages with
  | none => rw [hf] at h; exact absurd h (by simp)
  | some pg0 =>
      rw [hf] at h
      simp only at h
      have hqidx : ∀ d : FsPath, ¬ (d ++ ["index.md"] = q) := by
        intro d he
        rw [← he, basename_append_index] at hq
        exact hq rfl
      by_cases hd : dirname f ∈ fs.dirs
      · rw [if_pos hd] at h
        by_cases he : readdirEntries
            { fs with pages :=
              fs.pages.filter (fun e => !(decide (e.1 = f))) }
            (dirname f) = ["index.md"]
        · rw [if_pos he] at h
          obtain ⟨pg2, hw⟩ := updateIndexFile_shape _ _ _ _ _ _ h
          subst hw
          rw [writePage_lookup, if_neg (hqidx _), rimraf_pages_lookup]
          by_cases hu : isUnder (dirname f) q
          · rw [if_pos hu]
            exact ⟨Or.inr rfl, fun _ => rfl⟩
          · rw [if_neg hu]
            simp only
            rw [unlink_lookup]
            constructor
            · by_cases hqf : q = f
              · rw [if_pos hqf]; exact Or.inr rfl
              · rw [if_neg hqf]; exact Or.inl rfl
            · intro hqf
              rw [if_pos hqf]
        · rw [if_neg he] at h
          obtain ⟨pg2, hw⟩ := updateIndexFile_shape _ _ _ _ _ _ h
          subst hw
          rw [writePage_lookup, if_neg (hqidx _)]
          simp only
          rw [unlink_lookup]
          constructor
          · by_cases hqf : q = f
            · rw [if_pos hqf]; exact Or.inr rfl
            · rw [if_neg hqf]; exact Or.inl rfl
          · intro hqf
            rw [if_pos hqf]
      · rw [if_neg hd] at h
        exact absurd h (by simp)

theorem isUnder_length_le (d p : FsPath) (h : p.take d.length = d) :
    d.length ≤ p.length := by
  have := congrArg List.length h
  rw [List.length_take] at this
  omega

theorem removeStep_preserves_page (dfl : FmData) (fs : FS) (f : FsPath)
    (fs' : FS) (p : FsPath) (pg0 : Page)
    (h : removeStep dfl fs f = .ok fs')
    (hpf : ¬ (p = f))
    (hflen : 2 ≤ (dirname f).length)
    (hgood : jsIncludes (pathString p) "index.md" = false)
    (hJ : PageInPlace p pg0 fs) : PageInPlace p pg0 fs' := by
  obtain ⟨hp, hanc, hpd⟩ := hJ
  have hqb : ¬ (basename p = "index.md") := by
    intro hb
    have hpne : p ≠ [] := by
      intro he
      rw [he] at hb
      simp [basename] at hb
    have : "index.md" ∈ p := hb ▸ basename_mem p hpne
    exact absurd (jsIncludes_of_mem_segment p _ this) (by simp [hgood])
  have hqidx : ∀ d : FsPath, ¬ (d ++ ["index.md"] = p) := by
    intro d he
    rw [← he, basename_append_index] at hqb
    exact hqb rfl
  unfold removeStep at h
  cases hf : alookup f fs.pages with
  | none => rw [hf] at h; exact absurd h (by simp)
  | some pgf =>
      rw [hf] at h
      simp only at h
      set fs1 : FS :=
        { fs with pages := fs.pages.filter (fun e => !(decide (e.1 = f))) }
        with hfs1
      have hp1 : alookup p fs1.pages = some pg0 := by
        rw [hfs1]
        simp only
        rw [unlink_lookup, if_neg hpf]
        exact hp
      by_cases hd : dirname f ∈ fs.dirs
      · rw [if_pos hd] at h
        by_cases he : readdirEntries fs1 (dirname f) = ["index.md"]
        · rw [if_pos he] at h
          -- the rimraf target cannot lie on `p`'s path
          have hnu : ∀ m, 3 ≤ m → m ≤ p.length →
              ¬ (isUnder (dirname f) (p.take m) = true) := by
            intro m hm3 hmlen hund
            rw [isUnder_iff, List.take_take] at hund
            have hdle : (dirname f).length ≤ m := by
              have := isUnder_length_le (dirname f) (p.take m) (by
                rw [List.take_take]; exact hund)
              rw [List.length_take] at this
              omega
            rw [Nat.min_def, if_pos hdle] at hund
            have hdlep : (dirname f).length ≤ p.length :=
              isUnder_length_le _ _ hund
            by_cases heq : (dirname f).length = p.length
            · -- the directory path would equal `p` itself
              have hdp : dirname f = p := by
                rw [← hund, heq, List.take_length]
              exact hpd (hdp ▸ hd)
            · exact entries_ne_singleton_index fs1 p pg0 (dirname f) hp1
                (fun m2 hm2 hm2p => hanc m2 hm2 hm2p)
                hgood hflen hund (by omega) he
          have hnup : ¬ (isUnder (dirname f) p = true) := by
            intro hund
            rw [isUnder_iff] at hund
            have hdlep := isUnder_length_le _ _ hund
            by_cases heq : (dirname f).length = p.length
            · have hdp : dirname f = p := by
                rw [← hund, heq, List.take_length]
              exact hpd (hdp ▸ hd)
            · exact entries_ne_singleton_index fs1 p pg0 (dirname f) hp1
                (fun m2 hm2 hm2p => hanc m2 hm2 hm2p) hgood hflen hund
                (by omega) he
          obtain ⟨pg2, hw⟩ := updateIndexFile_shape _ _ _ _ _ _ h
          subst hw
          refine ⟨?_, ?_, ?_⟩
          · rw [writePage_lookup, if_neg (hqidx _), rimraf_pages_lookup,
              if_neg hnup]
            exact hp1
          · intro m hm3 hmp
            show p.take m ∈ (rimraf fs1 (dirname f)).dirs
            unfold rimraf
            simp only
            rw [List.mem_filter]
            refine ⟨hanc m hm3 hmp, ?_⟩
            have := hnu m hm3 (by omega)
            simpa using this
          · show p ∉ (rimraf fs1 (dirname f)).dirs
            unfold rimraf
            simp only
            rw [List.mem_filter]
            intro hc
            exact hpd hc.1
        · rw [if_neg he] at h
          obtain ⟨pg2, hw⟩ := updateIndexFile_shape _ _ _ _ _ _ h
          subst hw
          refine ⟨?_, ?_, ?_⟩
          · rw [writePage_lookup, if_neg (hqidx _)]
            exact hp1
          · intro m hm3 hmp
            exact hanc m hm3 hmp
          · exact hpd
      · rw [if_neg hd] at h
        exact absurd h (by simp)

theorem removeStep_pages_nodup (dfl : FmData) (fs : FS) (f : FsPath)
    (fs' : FS) (h : removeStep dfl fs f = .ok fs')
    (hnd : (fs.pages.map Prod.fst).Nodup) :
    ((fs'.pages.map Prod.fst).Nodup) := by
  unfold removeStep at h
  cases hf : alookup f fs.pages with
  | none => rw [hf] at h; exact absurd h (by simp)
  | some pgf =>
      rw [hf] at h
      simp only at h
      have hnd1 : (((fs.pages.filter
          (fun e => !(decide (e.1 = f)))).map Prod.fst)).Nodup :=
        ((List.filter_sublist fs.pages).map Prod.fst).nodup hnd
      by_cases hd : dirname f ∈ fs.dirs
      · rw [if_pos hd] at h
        by_cases he : readdirEntries
            { fs with pages := fs.pages.filter (fun e => !(decide (e.1 = f))) }
            (dirname f) = ["index.md"]
        · rw [if_pos he] at h
          obtain ⟨pg2, hw⟩ := updateIndexFile_shape _ _ _ _ _ _ h
          subst hw
          apply upsert_keys_nodup
          exact ((List.filter_sublist _).map Prod.fst).nodup hnd1
        · rw [if_neg he] at h
          obtain ⟨pg2, hw⟩ := updateIndexFile_shape _ _ _ _ _ _ h
          subst hw
          exact upsert_keys_nodup _ _ _ hnd1
      · rw [if_neg hd] at h
        exact absurd h (by simp)

theorem removeLoop_lookup (dfl : FmData) (toRemove : List FsPath) :
    ∀ (fs fs' : FS), foldE (removeStep dfl) fs toRemove = .ok fs' →
    ∀ q, ¬ (basename q = "index.md") →
    (alookup q fs'.pages = alookup q fs.pages ∨ alookup q fs'.pages = none) ∧
    (q ∈ toRemove → alookup q fs'.pages = none) := by
  induction toRemove with
  | nil =>
      intro fs fs' h q hq
      simp only [foldE, Except.ok.injEq] at h
      subst h
      exact ⟨Or.inl rfl, fun hc => by simp at hc⟩
  | cons f t ih =>
      intro fs fs' h q hq
      simp only [foldE] at h
      cases hstep : removeStep dfl fs f with
      | error e => rw [hstep] at h; exact absurd h (by simp)
      | ok s2 =>
          rw [hstep] at h
          have hs := removeStep_lookup dfl fs f s2 hstep q hq
          have ht := ih s2 fs' h q hq
          constructor
          · rcases ht.1 with h1 | h1
            · rcases hs.1 with h2 | h2
              · exact Or.inl (h1.trans h2)
              · exact Or.inr (h1.trans h2)
            · exact Or.inr h1
          · intro hmem
            rcases List.mem_cons.mp hmem with hqf | hqt
            · have h2 := hs.2 hqf
              rcases ht.1 with h1 | h1
              · exact h1.trans h2
              · exact h1
            · exact ht.2 hqt

theorem removeLoop_preserves_page (dfl : FmData) (toRemove : List FsPath)
    (p : FsPath) (pg0 : Page) :
    ∀ (fs fs' : FS), foldE (removeStep dfl) fs toRemove = .ok fs' →
    (∀ f ∈ toRemove, ¬ (p = f) ∧ 2 ≤ (dirname f).length) →
    jsIncludes (pathString p) "index.md" = false →
    PageInPlace p pg0 fs → PageInPlace p pg0 fs' := by
  induction toRemove with
  | nil =>
      intro fs fs' h _ _ hJ
      simp only [foldE, Except.ok.injEq] at h
      subst h
      exact hJ
  | cons f t ih =>
      intro fs fs' h hf hgood hJ
      simp only [foldE] at h
      cases hstep : removeStep dfl fs f with
      | error e => rw [hstep] at h; exact absurd h (by simp)
      | ok s2 =>
          rw [hstep] at h
          have hJ2 := removeStep_preserves_page dfl fs f s2 p pg0 hstep
            (hf f (List.mem_cons_self f t)).1
            (hf f (List.mem_cons_self f t)).2 hgood hJ
          exact ih s2 fs' h (fun g hg => hf g (List.mem_cons_of_mem f hg))
            hgood hJ2

theorem removeLoop_pages_nodup (dfl : FmData) (toRemove : List FsPath) :
    ∀ (fs fs' : FS), foldE (removeStep dfl) fs toRemove = .ok fs' →
    (fs.pages.map Prod.fst).Nodup → ((fs'.pages.map Prod.fst).Nodup) := by
  induction toRemove with
  | nil =>
      intro fs fs' h hnd
      simp only [foldE, Except.ok.injEq] at h
      subst h
      exact hnd
  | cons f t ih =>
      intro fs fs' h hnd
      simp only [foldE] at h
      cases hstep : removeStep dfl fs f with
      | error e => rw [hstep] at h; exact absurd h (by simp)
      | ok s2 =>
          rw [hstep] at h
          exact ih s2 fs' h (removeStep_pages_nodup dfl fs f s2 hstep hnd)

theorem addOrUpdateStep_lookup_other (dfl : FmData) (fs : FS) (q : FsPath)
    (fm : FmData) (fs' : FS) (h : addOrUpdateStep dfl fs q fm = .ok fs')
    (r : FsPath) (hr : ¬ (basename r = "index.md")) (hrq : ¬ (r = q)) :
    alookup r fs'.pages = alookup r fs.pages := by
  have hridx : ∀ d : FsPath, ¬ (d ++ ["index.md"] = r) := by
    intro d he
    rw [← he, basename_append_index] at hr
    exact hr rfl
  unfold addOrUpdateStep at h
  by_cases hex : existsSync fs q
  · rw [if_pos hex] at h
    cases hpg : alookup q fs.pages with
    | none => rw [hpg] at h; exact absurd h (by simp)
    | some pg =>
        rw [hpg] at h
        simp only [Except.ok.injEq] at h
        subst h
        rw [writePage_lookup, if_neg (fun he => hrq he.symm)]
  · rw [if_neg hex] at h
    have hpre : ∀ fs1 : FS,
        (if !(existsSync fs (dirname q)) then
          updateIndexFile dfl (mkdirp fs (dirname q)) (dirname q) "add"
            FmVal.null
        else .ok fs) = .ok fs1 →
        alookup r fs1.pages = alookup r fs.pages := by
      intro fs1 hpre1
      by_cases hdir : existsSync fs (dirname q)
      · rw [if_neg (by simp [hdir])] at hpre1
        simp only [Except.ok.injEq] at hpre1
        subst hpre1
        rfl
      · rw [if_pos (by simp [hdir])] at hpre1
        obtain ⟨pg2, hw⟩ := updateIndexFile_shape _ _ _ _ _ _ hpre1
        subst hw
        rw [writePage_lookup, if_neg (hridx _)]
        rfl
    cases hmk : (if !(existsSync fs (dirname q)) then
        updateIndexFile dfl (mkdirp fs (dirname q)) (dirname q) "add"
          FmVal.null
      else .ok fs) with
    | error e => rw [hmk] at h; exact absurd h (by simp)
    | ok fs1 =>
        rw [hmk] at h
        simp only at h
        obtain ⟨pg2, hw⟩ := updateIndexFile_shape _ _ _ _ _ _ h
        subst hw
        rw [writePage_lookup, if_neg (hridx _), writePage_lookup,
          if_neg (fun he => hrq he.symm)]
        exact hpre fs1 hmk

theorem addOrUpdateStep_settles (dfl : FmData) (fs : FS) (q : FsPath)
    (fm : FmData) (fs' : FS) (h : addOrUpdateStep dfl fs q fm = .ok fs')
    (hqb : ¬ (basename q = "index.md"))
    (hfmnd : (fm.map Prod.fst).Nodup)
    (hver : (alookup "versions" fm).isSome = true) :
    Settled q fm fs' := by
  have hqidx : ∀ d : FsPath, ¬ (d ++ ["index.md"] = q) := by
    intro d he
    rw [← he, basename_append_index] at hqb
    exact hqb rfl
  unfold addOrUpdateStep at h
  by_cases hex : existsSync fs q
  · rw [if_pos hex] at h
    cases hpg : alookup q fs.pages with
    | none => rw [hpg] at h; exact absurd h (by simp)
    | some pg =>
        rw [hpg] at h
        simp only [Except.ok.injEq] at h
        subst h
        refine ⟨upsert pg.data "versions"
          ((alookup "versions" fm).getD FmVal.null), pg.content, ?_, ?_⟩
        · rw [writePage_lookup, if_pos rfl]
        · exact upsert_upsert _ _ _
  · rw [if_neg hex] at h
    cases hmk : (if !(existsSync fs (dirname q)) then
        updateIndexFile dfl (mkdirp fs (dirname q)) (dirname q) "add"
          FmVal.null
      else .ok fs) with
    | error e => rw [hmk] at h; exact absurd h (by simp)
    | ok fs1 =>
        rw [hmk] at h
        simp only at h
        obtain ⟨pg2, hw⟩ := updateIndexFile_shape _ _ _ _ _ _ h
        subst hw
        refine ⟨fm, "", ?_, ?_⟩
        · rw [writePage_lookup, if_neg (hqidx _), writePage_lookup,
            if_pos rfl]
        · cases hv : alookup "versions" fm with
          | none => rw [hv] at hver; simp at hver
          | some v =>
              rw [Option.getD_some]
              exact upsert_noop fm "versions" v hfmnd hv

theorem addOrUpdateStep_pages_nodup (dfl : FmData) (fs : FS) (q : FsPath)
    (fm : FmData) (fs' : FS) (h : addOrUpdateStep dfl fs q fm = .ok fs')
    (hnd : (fs.pages.map Prod.fst).Nodup) :
    ((fs'.pages.map Prod.fst).Nodup) := by
  unfold addOrUpdateStep at h
  by_cases hex : existsSync fs q
  · rw [if_pos hex] at h
    cases hpg : alookup q fs.pages with
    | none => rw [hpg] at h; exact absurd h (by simp)
    | some pg =>
        rw [hpg] at h
        simp only [Except.ok.injEq] at h
        subst h
        exact upsert_keys_nodup _ _ _ hnd
  · rw [if_neg hex] at h
    cases hmk : (if !(existsSync fs (dirname q)) then
        updateIndexFile dfl (mkdirp fs (dirname q)) (dirname q) "add"
          FmVal.null
      else .ok fs) with
    | error e => rw [hmk] at h; exact absurd h (by simp)
    | ok fs1 =>
        rw [hmk] at h
        simp only at h
        have hnd1 : ((fs1.pages.map Prod.fst).Nodup) := by
          by_cases hdir : existsSync fs (dirname q)
          · rw [if_neg (by simp [hdir])] at hmk
            simp only [Except.ok.injEq] at hmk
            subst hmk
            exact hnd
          · rw [if_pos (by simp [hdir])] at hmk
            obtain ⟨pg2, hw⟩ := updateIndexFile_shape _ _ _ _ _ _ hmk
            subst hw
            exact upsert_keys_nodup _ _ _ hnd
        obtain ⟨pg2, hw⟩ := updateIndexFile_shape _ _ _ _ _ _ h
        subst hw
        exact upsert_keys_nodup _ _ _ (upsert_keys_nodup _ _ _ hnd1)

theorem addLoop_lookup_other (dfl : FmData)
    (desired : List (FsPath × FmData)) :
    ∀ (fs fs' : FS),
    foldE (fun s pf => addOrUpdateStep dfl s pf.1 pf.2) fs desired = .ok fs' →
    ∀ r, ¬ (basename r = "index.md") → (∀ pf ∈ desired, ¬ (r = pf.1)) →
    alookup r fs'.pages = alookup r fs.pages := by
  induction desired with
  | nil =>
      intro fs fs' h r _ _
      simp only [foldE, Except.ok.injEq] at h
      subst h
      rfl
  | cons qf t ih =>
      intro fs fs' h r hr hrq
      simp only [foldE] at h
      cases hstep : addOrUpdateStep dfl fs qf.1 qf.2 with
      | error e => rw [hstep] at h; exact absurd h (by simp)
      | ok s2 =>
          rw [hstep] at h
          rw [ih s2 fs' h r hr
            (fun pf hpf => hrq pf (List.mem_cons_of_mem qf hpf))]
          exact addOrUpdateStep_lookup_other dfl fs qf.1 qf.2 s2 hstep r hr
            (hrq qf (List.mem_cons_self qf t))

theorem addLoop_settles (dfl : FmData) (desired : List (FsPath × FmData)) :
    ∀ (fs fs' : FS),
    foldE (fun s pf => addOrUpdateStep dfl s pf.1 pf.2) fs desired = .ok fs' →
    (desired.map Prod.fst).Nodup →
    (∀ pf ∈ desired, ¬ (basename pf.1 = "index.md")) →
    (∀ pf ∈ desired, ((pf.2.map Prod.fst).Nodup) ∧
      (alookup "versions" pf.2).isSome = true) →
    ∀ pf ∈ desired, Settled pf.1 pf.2 fs' := by
  induction desired with
  | nil =>
      intro fs fs' _ _ _ _ pf hpf
      simp at hpf
  | cons qf t ih =>
      intro fs fs' h hnd hgood hfm pf hpf
      simp only [foldE] at h
      cases hstep : addOrUpdateStep dfl fs qf.1 qf.2 with
      | error e => rw [hstep] at h; exact absurd h (by simp)
      | ok s2 =>
          rw [hstep] at h
          rcases List.mem_cons.mp hpf with hpf1 | hpf2
          · subst hpf1
            have hset := addOrUpdateStep_settles dfl fs pf.1 pf.2 s2 hstep
              (hgood pf (List.mem_cons_self pf t))
              (hfm pf (List.mem_cons_self pf t)).1
              (hfm pf (List.mem_cons_self pf t)).2
            obtain ⟨d, c, hq, hup⟩ := hset
            refine ⟨d, c, ?_, hup⟩
            rw [addLoop_lookup_other dfl t s2 fs' h pf.1
              (hgood pf (List.mem_cons_self pf t)) ?_]
            · exact hq
            · intro pg hpg he
              rw [List.map_cons, List.nodup_cons] at hnd
              exact hnd.1 (he ▸ List.mem_map_of_mem Prod.fst hpg)
          · exact ih s2 fs' h
              (by rw [List.map_cons, List.nodup_cons] at hnd; exact hnd.2)
              (fun pg hpg => hgood pg (List.mem_cons_of_mem qf hpg))
              (fun pg hpg => hfm pg (List.mem_cons_of_mem qf hpg))
              pf hpf2

theorem addLoop_pages_nodup (dfl : FmData)
    (desired : List (FsPath × FmData)) :
    ∀ (fs fs' : FS),
    foldE (fun s pf => addOrUpdateStep dfl s pf.1 pf.2) fs desired = .ok fs' →
    (fs.pages.map Prod.fst).Nodup → ((fs'.pages.map Prod.fst).Nodup) := by
  induction desired with
  | nil =>
      intro fs fs' h hnd
      simp only [foldE, Except.ok.injEq] at h
      subst h
      exact hnd
  | cons qf t ih =>
      intro fs fs' h hnd
      simp only [foldE] at h
      cases hstep : addOrUpdateStep dfl fs qf.1 qf.2 with
      | error e => rw [hstep] at h; exact absurd h (by simp)
      | ok s2 =>
          rw [hstep] at h
          exact ih s2 fs' h
            (addOrUpdateStep_pages_nodup dfl fs qf.1 qf.2 s2 hstep hnd)

theorem addOrUpdateStep_noop (dfl : FmData) (fs : FS) (q : FsPath)
    (fm : FmData) (hS : Settled q fm fs)
    (hnd : (fs.pages.map Prod.fst).Nodup) :
    addOrUpdateStep dfl fs q fm = .ok fs := by
  obtain ⟨d, c, hq, hup⟩ := hS
  have hex : existsSync fs q = true := by
    unfold existsSync
    rw [hq]
    simp
  unfold addOrUpdateStep
  rw [if_pos hex, hq]
  simp only [Except.ok.injEq]
  rw [hup]
  unfold writePage
  rw [upsert_noop fs.pages q ⟨d, c⟩ hnd hq]

theorem addLoop_noop (dfl : FmData) (desired : List (FsPath × FmData))
    (fs : FS) (hS : ∀ pf ∈ desired, Settled pf.1 pf.2 fs)
    (hnd : (fs.pages.map Prod.fst).Nodup) :
    foldE (fun s pf => addOrUpdateStep dfl s pf.1 pf.2) fs desired =
      .ok fs := by
  induction desired with
  | nil => rfl
  | cons qf t ih =>
      simp only [foldE]
      rw [addOrUpdateStep_noop dfl fs qf.1 qf.2
        (hS qf (List.mem_cons_self qf t)) hnd]
      exact ih (fun pg hpg => hS pg (List.mem_cons_of_mem qf hpg))

theorem updateMarkdownFiles_eq (dfl : FmData)
    (desired : List (FsPath × FmData)) (fs : FS) :
    updateMarkdownFiles dfl desired fs =
      match foldE (removeStep dfl) fs (filesToRemoveOf desired fs) with
      | .error e => .error e
      | .ok fsr =>
          foldE (fun s pf => addOrUpdateStep dfl s pf.1 pf.2) fsr desired :=
  rfl

theorem basename_ne_index_of_no_includes (p : FsPath)
    (hgood : jsIncludes (pathString p) "index.md" = false) :
    ¬ (basename p = "index.md") := by
  intro hb
  have hpne : p ≠ [] := by
    intro he
    rw [he] at hb
    simp [basename] at hb
  have : "index.md" ∈ p := hb ▸ basename_mem p hpne
  exact absurd (jsIncludes_of_mem_segment p _ this) (by simp [hgood])

/-- C7: reconciliation is idempotent — when a run of `updateMarkdownFiles`
against a catalog-derived desired page map succeeds, running it again
against the same desired map returns the very same file-system state, with
no effective change.  (Hypotheses: the desired map has unique, well-formed
paths — below `content/rest`, path strings free of `index.md`/`README.md` —
each desired frontmatter is a JS object with a `versions` key, and the
initial file system has unique page paths.) -/
theorem c7_updateMarkdownFiles_idempotent (dfl : FmData)
    (desired : List (FsPath × FmData)) (fs fs1 : FS)
    (hnd : (desired.map Prod.fst).Nodup)
    (hfsnd : (fs.pages.map Prod.fst).Nodup)
    (hgood : ∀ pf ∈ desired,
      jsIncludes (pathString pf.1) "index.md" = false ∧
      jsIncludes (pathString pf.1) "README.md" = false ∧
      underRest pf.1 = true)
    (hfm : ∀ pf ∈ desired, ((pf.2.map Prod.fst).Nodup) ∧
      (alookup "versions" pf.2).isSome = true)
    (h1 : updateMarkdownFiles dfl desired fs = .ok fs1) :
    updateMarkdownFiles dfl desired fs1 = .ok fs1 := by
  rw [updateMarkdownFiles_eq] at h1
  cases hrem : foldE (removeStep dfl) fs (filesToRemoveOf desired fs) with
  | error e => rw [hrem] at h1; exact absurd h1 (by simp)
  | ok fsr =>
      rw [hrem] at h1
      simp only at h1
      have hgb : ∀ pf ∈ desired, ¬ (basename pf.1 = "index.md") :=
        fun pf hpf =>
          basename_ne_index_of_no_includes pf.1 (hgood pf hpf).1
      have hfsrnd : ((fsr.pages.map Prod.fst).Nodup) :=
        removeLoop_pages_nodup dfl _ fs fsr hrem hfsnd
      have hfs1nd : ((fs1.pages.map Prod.fst).Nodup) :=
        addLoop_pages_nodup dfl desired fsr fs1 h1 hfsrnd
      have hsettled : ∀ pf ∈ desired, Settled pf.1 pf.2 fs1 :=
        addLoop_settles dfl desired fsr fs1 h1 hnd hgb hfm
      have hempty : filesToRemoveOf desired fs1 = [] := by
        unfold filesToRemoveOf
        rw [List.filter_eq_nil_iff]
        intro q hq
        simp only [Bool.not_eq_true', Bool.not_eq_false,
          decide_eq_true_eq]
        by_contra hqd
        rw [List.mem_filter] at hq
        obtain ⟨hqw, hqa⟩ := hq
        rw [List.mem_filter] at hqw
        obtain ⟨hqk, hqf⟩ := hqw
        have hqf2 : underRest q = true ∧
            jsIncludes (pathString q) "index.md" = false ∧
            jsIncludes (pathString q) "README.md" = false := by
          simp only [walkFilter, Bool.and_eq_true, Bool.not_eq_true'] at hqf
          exact ⟨hqf.1.1, hqf.1.2, hqf.2⟩
        have hqb : ¬ (basename q = "index.md") :=
          basename_ne_index_of_no_includes q hqf2.2.1
        have hsq : (alookup q fs1.pages).isSome :=
          (alookup_isSome_iff_mem_keys _ _).mpr hqk
        cases hpq : alookup q fs1.pages with
        | none => rw [hpq] at hsq; simp at hsq
        | some pgq =>
            have hq1r : alookup q fs1.pages = alookup q fsr.pages :=
              addLoop_lookup_other dfl desired fsr fs1 h1 q hqb
                (fun pf hpf he =>
                  hqd (he ▸ List.mem_map_of_mem Prod.fst hpf))
            have hrr := removeLoop_lookup dfl _ fs fsr hrem q hqb
            have hqfs : alookup q fs.pages = some pgq := by
              rcases hrr.1 with h2 | h2
              · rw [← h2, ← hq1r, hpq]
              · rw [← hq1r, hpq] at h2
                exact absurd h2 (by simp)
            have hqtr : q ∈ filesToRemoveOf desired fs := by
              unfold filesToRemoveOf
              rw [List.mem_filter]
              refine ⟨?_, by simpa using hqd⟩
              rw [List.mem_filter]
              refine ⟨?_, ?_⟩
              · rw [List.mem_filter]
                exact ⟨(alookup_isSome_iff_mem_keys _ _).mp
                  (by rw [hqfs]; rfl), hqf⟩
              · unfold autogenPage
                rw [hqfs]
                unfold autogenPage at hqa
                rw [hpq] at hqa
                exact hqa
            have hnone := hrr.2 hqtr
            rw [← hq1r, hpq] at hnone
            exact absurd hnone (by simp)
      rw [updateMarkdownFiles_eq, hempty]
      show foldE (fun s pf => addOrUpdateStep dfl s pf.1 pf.2) fs1 desired =
        .ok fs1
      exact addLoop_noop dfl desired fs1 hsettled hfs1nd

theorem addOrUpdateStep_existing (dfl : FmData) (fs : FS) (q : FsPath)
    (fm : FmData) (pg : Page) (hq : alookup q fs.pages = some pg) :
    addOrUpdateStep dfl fs q fm = .ok (writePage fs q
      ⟨upsert pg.data "versions" ((alookup "versions" fm).getD FmVal.null),
        pg.content⟩) := by
  unfold addOrUpdateStep
  have hex : existsSync fs q = true := by
    unfold existsSync
    rw [hq]
    simp
  rw [if_pos hex, hq]

theorem addLoop_updates_existing (dfl : FmData)
    (desired : List (FsPath × FmData)) :
    ∀ (fs fs' : FS),
    foldE (fun s pf => addOrUpdateStep dfl s pf.1 pf.2) fs desired = .ok fs' →
    (desired.map Prod.fst).Nodup →
    ∀ (p : FsPath) (fm : FmData) (pg : Page), (p, fm) ∈ desired →
    ¬ (basename p = "index.md") →
    alookup p fs.pages = some pg →
    alookup p fs'.pages = some ⟨upsert pg.data "versions"
      ((alookup "versions" fm).getD FmVal.null), pg.content⟩ := by
  induction desired with
  | nil =>
      intro fs fs' _ _ p fm pg hmem _ _
      simp at hmem
  | cons qf t ih =>
      intro fs fs' h hnd p fm pg hmem hpb hp
      simp only [foldE] at h
      rw [List.map_cons, List.nodup_cons] at hnd
      rcases List.mem_cons.mp hmem with hmem1 | hmem2
      · have hq1 : qf.1 = p := by rw [← hmem1]
        have hq2 : qf.2 = fm := by rw [← hmem1]
        rw [addOrUpdateStep_existing dfl fs qf.1 qf.2 pg (hq1 ▸ hp)] at h
        rw [addLoop_lookup_other dfl t _ fs' h p hpb
          (fun pg2 hpg2 he => hnd.1 (by
            rw [hq1, he]
            exact List.mem_map_of_mem Prod.fst hpg2))]
        · rw [writePage_lookup, if_pos hq1, hq2]
      · have hqp : ¬ (p = qf.1) := by
          intro he
          exact hnd.1 (he ▸ List.mem_map_of_mem Prod.fst hmem2)
        cases hstep : addOrUpdateStep dfl fs qf.1 qf.2 with
        | error e => rw [hstep] at h; exact absurd h (by simp)
        | ok s2 =>
            rw [hstep] at h
            have hps2 : alookup p s2.pages = some pg := by
              rw [addOrUpdateStep_lookup_other dfl fs qf.1 qf.2 s2 hstep p
                hpb hqp]
              exact hp
            exact ih s2 fs' h hnd.2 p fm pg hmem2 hpb hps2

/-- C6: for an existing page that is in the desired page map, reconciliation
rewrites the page with only its `versions` frontmatter key overwritten —
the body text and every other frontmatter key (title, shortTitle, intro,
custom keys) are preserved verbatim. -/
theorem c6_update_overwrites_only_versions (dfl : FmData)
    (desired : List (FsPath × FmData)) (fs fs1 : FS) (p : FsPath)
    (fm : FmData) (pg : Page)
    (hnd : (desired.map Prod.fst).Nodup)
    (hmem : (p, fm) ∈ desired)
    (hgoodp : jsIncludes (pathString p) "index.md" = false)
    (hp : alookup p fs.pages = some pg)
    (hpd : p ∉ fs.dirs)
    (hanc : ∀ m, 3 ≤ m → m < p.length → p.take m ∈ fs.dirs)
    (h1 : updateMarkdownFiles dfl desired fs = .ok fs1) :
    alookup p fs1.pages = some ⟨upsert pg.data "versions"
      ((alookup "versions" fm).getD FmVal.null), pg.content⟩ ∧
    (∀ k, ¬ (k = "versions") →
      alookup k (upsert pg.data "versions"
        ((alookup "versions" fm).getD FmVal.null)) = alookup k pg.data) := by
  rw [updateMarkdownFiles_eq] at h1
  cases hrem : foldE (removeStep dfl) fs (filesToRemoveOf desired fs) with
  | error e => rw [hrem] at h1; exact absurd h1 (by simp)
  | ok fsr =>
      rw [hrem] at h1
      simp only at h1
      have hpb : ¬ (basename p = "index.md") :=
        basename_ne_index_of_no_includes p hgoodp
      have hpres : PageInPlace p pg fsr := by
        apply removeLoop_preserves_page dfl _ p pg fs fsr hrem ?_ hgoodp
          ⟨hp, hanc, hpd⟩
        intro f hf
        unfold filesToRemoveOf at hf
        rw [List.mem_filter] at hf
        obtain ⟨hf1, hf2⟩ := hf
        rw [List.mem_filter] at hf1
        obtain ⟨hf3, _⟩ := hf1
        rw [List.mem_filter] at hf3
        obtain ⟨_, hfw⟩ := hf3
        constructor
        · intro he
          have : f ∈ desired.map Prod.fst := by
            rw [← he]
            exact List.mem_map_of_mem Prod.fst hmem
          simp [this] at hf2
        · simp only [walkFilter, underRest, Bool.and_eq_true,
            decide_eq_true_eq] at hfw
          have : 2 < f.length := hfw.1.1.2
          unfold dirname
          rw [List.length_dropLast]
          omega
      constructor
      · exact addLoop_updates_existing dfl desired fsr fs1 h1 hnd p fm pg
          hmem hpb hpres.1
      · intro k hk
        rw [alookup_upsert]
        rw [if_neg (fun he => hk he.symm)]

theorem c6_witness :
    alookup (["content", "rest", "cat", "sub.md"] : FsPath)
      (FS.mk [(["content", "rest", "cat", "sub.md"],
        ⟨[("title", FmVal.str "T"), ("autogenerated", FmVal.str "rest"),
          ("versions", FmVal.vmap [("fpt", "*"), ("ghes", "<=3.4")]),
          ("custom", FmVal.str "x")], "BODY"⟩)]
        [["content"], ["content", "rest"], ["content", "rest", "cat"]]).pages =
      some ⟨upsert
        [("title", FmVal.str "T"), ("autogenerated", FmVal.str "rest"),
         ("versions", FmVal.vmap [("fpt", "*")]), ("custom", FmVal.str "x")]
        "versions"
        ((alookup "versions"
          [("title", FmVal.str "sub"),
           ("versions", FmVal.vmap [("fpt", "*"), ("ghes", "<=3.4")]),
           ("autogenerated", FmVal.str "rest")]).getD FmVal.null),
        "BODY"⟩ ∧
    (∀ k, ¬ (k = "versions") →
      alookup k (upsert
        [("title", FmVal.str "T"), ("autogenerated", FmVal.str "rest"),
         ("versions", FmVal.vmap [("fpt", "*")]), ("custom", FmVal.str "x")]
        "versions"
        ((alookup "versions"
          [("title", FmVal.str "sub"),
           ("versions", FmVal.vmap [("fpt", "*"), ("ghes", "<=3.4")]),
           ("autogenerated", FmVal.str "rest")]).getD FmVal.null)) =
      alookup k
        [("title", FmVal.str "T"), ("autogenerated", FmVal.str "rest"),
         ("versions", FmVal.vmap [("fpt", "*")]), ("custom", FmVal.str "x")]) :=
  c6_update_overwrites_only_versions [("autogenerated", FmVal.str "rest")]
    [(["content", "rest", "cat", "sub.md"],
      [("title", FmVal.str "sub"),
       ("versions", FmVal.vmap [("fpt", "*"), ("ghes", "<=3.4")]),
       ("autogenerated", FmVal.str "rest")])]
    (FS.mk [(["content", "rest", "cat", "sub.md"],
      ⟨[("title", FmVal.str "T"), ("autogenerated", FmVal.str "rest"),
        ("versions", FmVal.vmap [("fpt", "*")]), ("custom", FmVal.str "x")],
        "BODY"⟩)]
      [["content"], ["content", "rest"], ["content", "rest", "cat"]])
    (FS.mk [(["content", "rest", "cat", "sub.md"],
      ⟨[("title", FmVal.str "T"), ("autogenerated", FmVal.str "rest"),
        ("versions", FmVal.vmap [("fpt", "*"), ("ghes", "<=3.4")]),
        ("custom", FmVal.str "x")], "BODY"⟩)]
      [["content"], ["content", "rest"], ["content", "rest", "cat"]])
    ["content", "rest", "cat", "sub.md"]
    [("title", FmVal.str "sub"),
     ("versions", FmVal.vmap [("fpt", "*"), ("ghes", "<=3.4")]),
     ("autogenerated", FmVal.str "rest")]
    ⟨[("title", FmVal.str "T"), ("autogenerated", FmVal.str "rest"),
      ("versions", FmVal.vmap [("fpt", "*")]), ("custom", FmVal.str "x")],
      "BODY"⟩
    (by decide) (by decide) (by decide) (by decide) (by decide)
    (by
      intro m h3 h4
      have hm : m = 3 := by
        simp only [List.length_cons, List.length_nil] at h4
        omega
      subst hm
      decide)
    (by rfl)

theorem c7_witness :
    updateMarkdownFiles [("autogenerated", FmVal.str "rest")]
      [(["content", "rest", "newcat", "sub.md"],
        [("title", FmVal.str "sub"), ("versions", FmVal.vmap [("fpt", "*")]),
         ("autogenerated", FmVal.str "rest")])]
      ⟨[(["content", "rest", "index.md"],
          ⟨[("children", FmVal.strList ["/other", "/newcat"])], ""⟩),
        (["content", "rest", "newcat", "sub.md"],
          ⟨[("title", FmVal.str "sub"), ("versions", FmVal.vmap [("fpt", "*")]),
            ("autogenerated", FmVal.str "rest")], ""⟩),
        (["content", "rest", "newcat", "index.md"],
          ⟨[("title", FmVal.str "newcat"), ("shortTitle", FmVal.str "newcat"),
            ("intro", FmVal.str ""), ("versions", FmVal.vmap [("fpt", "*")]),
            ("autogenerated", FmVal.str "rest"),
            ("children", FmVal.strList ["/sub"])], ""⟩)],
        [["content"], ["content", "rest"], ["content", "rest", "newcat"]]⟩ =
      .ok ⟨[(["content", "rest", "index.md"],
          ⟨[("children", FmVal.strList ["/other", "/newcat"])], ""⟩),
        (["content", "rest", "newcat", "sub.md"],
          ⟨[("title", FmVal.str "sub"), ("versions", FmVal.vmap [("fpt", "*")]),
            ("autogenerated", FmVal.str "rest")], ""⟩),
        (["content", "rest", "newcat", "index.md"],
          ⟨[("title", FmVal.str "newcat"), ("shortTitle", FmVal.str "newcat"),
            ("intro", FmVal.str ""), ("versions", FmVal.vmap [("fpt", "*")]),
            ("autogenerated", FmVal.str "rest"),
            ("children", FmVal.strList ["/sub"])], ""⟩)],
        [["content"], ["content", "rest"], ["content", "rest", "newcat"]]⟩ :=
  c7_updateMarkdownFiles_idempotent [("autogenerated", FmVal.str "rest")]
    [(["content", "rest", "newcat", "sub.md"],
      [("title", FmVal.str "sub"), ("versions", FmVal.vmap [("fpt", "*")]),
       ("autogenerated", FmVal.str "rest")])]
    ⟨[(["content", "rest", "index.md"],
        ⟨[("children", FmVal.strList ["/other"])], ""⟩)],
      [["content"], ["content", "rest"]]⟩
    ⟨[(["content", "rest", "index.md"],
        ⟨[("children", FmVal.strList ["/other", "/newcat"])], ""⟩),
      (["content", "rest", "newcat", "sub.md"],
        ⟨[("title", FmVal.str "sub"), ("versions", FmVal.vmap [("fpt", "*")]),
          ("autogenerated", FmVal.str "rest")], ""⟩),
      (["content", "rest", "newcat", "index.md"],
        ⟨[("title", FmVal.str "newcat"), ("shortTitle", FmVal.str "newcat"),
          ("intro", FmVal.str ""), ("versions", FmVal.vmap [("fpt", "*")]),
          ("autogenerated", FmVal.str "rest"),
          ("children", FmVal.strList ["/sub"])], ""⟩)],
      [["content"], ["content", "rest"], ["content", "rest", "newcat"]]⟩
    (by decide) (by decide) (by decide) (by decide) (by rfl)

/-! ### The string order used by `sort()` -/

theorem charListLe_total : ∀ a b : List Char,
    charListLe a b = true ∨ charListLe b a = true := by
  intro a
  induction a with
  | nil => intro b; left; rfl
  | cons x as ih =>
      intro b
      cases b with
      | nil => right; rfl
      | cons y bs =>
          rcases lt_trichotomy x y with hxy | hxy | hxy
          · left
            simp [charListLe, hxy]
          · subst hxy
            rcases ih bs with h | h
            · left
              simp [charListLe, lt_irrefl, h]
            · right
              simp [charListLe, lt_irrefl, h]
          · right
            simp [charListLe, hxy]

theorem charListLe_trans : ∀ a b c : List Char,
    charListLe a b = true → charListLe b c = true → charListLe a c = true := by
  intro a
  induction a with
  | nil => intro b c _ _; rfl
  | cons x as ih =>
      intro b c hab hbc
      cases b with
      | nil => exact absurd hab (by simp [charListLe])
      | cons y bs =>
          cases c with
          | nil => exact absurd hbc (by simp [charListLe])
          | cons z cs =>
              simp only [charListLe] at hab hbc ⊢
              by_cases hxy : x < y
              · by_cases hyz : y < z
                · rw [if_pos (hxy.trans hyz)]
                · by_cases hzy : z < y
                  · exact absurd hbc (by simp [hyz, hzy])
                  · have hyzeq : y = z := le_antisymm (not_lt.mp hzy) (not_lt.mp hyz)
                    subst hyzeq
                    rw [if_pos hxy]
              · by_cases hyx : y < x
                · exact absurd hab (by simp [hxy, hyx])
                · have hxyeq : x = y := le_antisymm (not_lt.mp hyx) (not_lt.mp hxy)
                  subst hxyeq
                  simp only [lt_self_iff_false, if_false] at hab
                  by_cases hyz : x < z
                  · rw [if_pos hyz]
                  · by_cases hzy : z < x
                    · exact absurd hbc (by simp [hyz, hzy])
                    · rw [if_neg hyz] at hbc ⊢
                      rw [if_neg hzy] at hbc ⊢
                      exact ih bs cs hab hbc

theorem charListLe_antisymm : ∀ a b : List Char,
    charListLe a b = true → charListLe b a = true → a = b := by
  intro a
  induction a with
  | nil =>
      intro b _ hba
      cases b with
      | nil => rfl
      | cons y bs => exact absurd hba (by simp [charListLe])
  | cons x as ih =>
      intro b hab hba
      cases b with
      | nil => exact absurd hab (by simp [charListLe])
      | cons y bs =>
          simp only [charListLe] at hab hba
          by_cases hxy : x < y
          · exact absurd hba (by simp [hxy, asymm hxy])
          · by_cases hyx : y < x
            · exact absurd hab (by simp [hxy, hyx])
            · have hxyeq : x = y := le_antisymm (not_lt.mp hyx) (not_lt.mp hxy)
              subst hxyeq
              simp only [lt_self_iff_false, if_false] at hab hba
              rw [ih bs hab hba]

theorem strLe_total (a b : String) : strLe a b = true ∨ strLe b a = true :=
  charListLe_total a.data b.data

theorem strLe_trans (a b c : String) (hab : strLe a b = true)
    (hbc : strLe b c = true) : strLe a c = true :=
  charListLe_trans a.data b.data c.data hab hbc

theorem strLe_antisymm (a b : String) (hab : strLe a b = true)
    (hba : strLe b a = true) : a = b :=
  String.ext (charListLe_antisymm a.data b.data hab hba)

/-! ### Permutation invariance of `convertVersionsToFrontmatter` -/

theorem perm_any_eq {α : Type} (p : α → Bool) {l1 l2 : List α}
    (h : l1.Perm l2) : l1.any p = l2.any p := by
  rw [Bool.eq_iff_iff]
  simp only [List.any_eq_true]
  exact ⟨fun ⟨a, ha, hpa⟩ => ⟨a, h.mem_iff.mp ha, hpa⟩,
    fun ⟨a, ha, hpa⟩ => ⟨a, h.mem_iff.mpr ha, hpa⟩⟩

theorem markPresent_perm (ordered : List String) {p1 p2 : List String}
    (h : p1.Perm p2) : markPresent ordered p1 = markPresent ordered p2 := by
  unfold markPresent
  apply List.map_congr_left
  intro r _
  by_cases hm : r ∈ p1
  · rw [if_pos hm, if_pos (h.mem_iff.mp hm)]
  · rw [if_neg hm, if_neg (fun hc => hm (h.mem_iff.mpr hc))]

theorem foldl_convStep_fmv_keys_nodup (reg : String → DocsVersion) :
    ∀ (versions : List String) (s : ConvState),
      ((s.fmv.map Prod.fst).Nodup) →
      (((versions.foldl (convStep reg) s).fmv.map Prod.fst).Nodup) := by
  intro versions
  induction versions with
  | nil => intro s h; exact h
  | cons v t ih =>
      intro s h
      rw [List.foldl_cons]
      apply ih
      by_cases hb : (reg v).hasNumberedReleases = true
      · have hfmv : (convStep reg s v).fmv = s.fmv := by
          simp only [convStep, hb, Bool.not_true, Bool.false_eq_true, if_false]
          cases alookup (reg v).shortName s.nr <;> rfl
        rw [hfmv]; exact h
      · have hb' : (reg v).hasNumberedReleases = false := by simpa using hb
        have hfmv : (convStep reg s v).fmv =
            upsert s.fmv (reg v).shortName "*" := by
          simp [convStep, hb']
        rw [hfmv]
        exact upsert_keys_nodup _ _ _ h

theorem foldl_upsert_lineValue_keys_nodup :
    ∀ (nr : List (String × List (Option String)))
      (fmv : List (String × String)),
      ((fmv.map Prod.fst).Nodup) →
      (((nr.foldl (fun acc p => upsert acc p.1 (lineValue p.2)) fmv).map
        Prod.fst).Nodup) := by
  intro nr
  induction nr with
  | nil => intro fmv h; exact h
  | cons p t ih =>
      intro fmv h
      rw [List.foldl_cons]
      exact ih _ (upsert_keys_nodup _ _ _ h)

theorem alookup_fmv2Of (reg : String → DocsVersion) (versions : List String)
    (k : String) :
    alookup k (fmv2Of reg versions) =
      alookup k (convertVersionsToFrontmatter reg versions) :=
  (alookup_convert_eq_fmv2 reg versions k).symm

theorem fmv2Of_keys_nodup (reg : String → DocsVersion)
    (versions : List String) : (((fmv2Of reg versions).map Prod.fst).Nodup) :=
  foldl_upsert_lineValue_keys_nodup _ _
    (foldl_convStep_fmv_keys_nodup reg versions ⟨[], []⟩ (by simp))

theorem convert_perm (reg : String → DocsVersion) (l1 l2 : List String)
    (hp : l1.Perm l2)
    (hreg : ∀ v w : String, (reg v).shortName = (reg w).shortName →
      (reg v).hasNumberedReleases = true → (reg w).hasNumberedReleases = true →
      (reg v).releases = (reg w).releases)
    (hnd : ∀ v : String, (reg v).hasNumberedReleases = true →
      (jsSortStrings (reg v).releases).Nodup) :
    convertVersionsToFrontmatter reg l1 = convertVersionsToFrontmatter reg l2 := by
  have halk : ∀ k, alookup k (convertVersionsToFrontmatter reg l1) =
      alookup k (convertVersionsToFrontmatter reg l2) := by
    intro k
    have hpl : (linePresent reg l1 k).Perm (linePresent reg l2 k) :=
      List.Perm.filterMap _ hp
    by_cases hex : ∃ v, v ∈ l1 ∧ (reg v).shortName = k ∧
        (reg v).hasNumberedReleases = true
    · obtain ⟨v₀, hv₀, hs₀, hn₀⟩ := hex
      rw [alookup_convert reg l1 k (reg v₀).releases
          (fun v _ hs hn => hreg v v₀ (by rw [hs, hs₀]) hn hn₀),
        alookup_convert reg l2 k (reg v₀).releases
          (fun v _ hs hn => hreg v v₀ (by rw [hs, hs₀]) hn hn₀)]
      by_cases hnil : linePresent reg l1 k = []
      · have hnil2 : linePresent reg l2 k = [] := by
          rw [hnil] at hpl
          exact hpl.symm.eq_nil
        rw [hnil, hnil2, perm_any_eq _ hp]
      · have hnil2 : ¬ linePresent reg l2 k = [] := by
          intro h2
          rw [h2] at hpl
          exact hnil hpl.eq_nil
        rw [lineAccum_eq_markPresent _ _ (hnd v₀ hn₀) hnil,
          lineAccum_eq_markPresent _ _ (hnd v₀ hn₀) hnil2,
          markPresent_perm _ hpl, perm_any_eq _ hp]
    · have hkR1 : ∀ v ∈ l1, (reg v).shortName = k →
          (reg v).hasNumberedReleases = true → (reg v).releases = [] :=
        fun v hv hs hn => absurd ⟨v, hv, hs, hn⟩ hex
      have hkR2 : ∀ v ∈ l2, (reg v).shortName = k →
          (reg v).hasNumberedReleases = true → (reg v).releases = [] :=
        fun v hv hs hn => absurd ⟨v, hp.mem_iff.mpr hv, hs, hn⟩ hex
      rw [alookup_convert reg l1 k [] hkR1, alookup_convert reg l2 k [] hkR2]
      have hnil : linePresent reg l1 k = [] := by
        apply List.filterMap_eq_nil_iff.mpr
        intro v hv
        rw [if_neg (fun hc => hex ⟨v, hv, hc.1, hc.2⟩)]
      have hnil2 : linePresent reg l2 k = [] := by
        apply List.filterMap_eq_nil_iff.mpr
        intro v hv
        rw [if_neg (fun hc => hex ⟨v, hp.mem_iff.mpr hv, hc.1, hc.2⟩)]
      rw [hnil, hnil2, perm_any_eq _ hp]
  have hkeys : jsSortStrings ((fmv2Of reg l1).map Prod.fst) =
      jsSortStrings ((fmv2Of reg l2).map Prod.fst) := by
    have hmem : ∀ a, a ∈ (fmv2Of reg l1).map Prod.fst ↔
        a ∈ (fmv2Of reg l2).map Prod.fst := by
      intro a
      rw [← alookup_isSome_iff_mem_keys, ← alookup_isSome_iff_mem_keys,
        alookup_fmv2Of, alookup_fmv2Of, halk a]
    have hperm12 : ((fmv2Of reg l1).map Prod.fst).Perm
        ((fmv2Of reg l2).map Prod.fst) :=
      (List.perm_ext_iff_of_nodup (fmv2Of_keys_nodup reg l1)
        (fmv2Of_keys_nodup reg l2)).mpr hmem
    haveI instTot : IsTotal String (fun a b => strLe a b = true) :=
      ⟨strLe_total⟩
    haveI instTrans : IsTrans String (fun a b => strLe a b = true) :=
      ⟨strLe_trans⟩
    haveI instAnti : IsAntisymm String (fun a b => strLe a b = true) :=
      ⟨strLe_antisymm⟩
    exact List.eq_of_perm_of_sorted
      (((jsSortStrings_perm _).trans hperm12).trans (jsSortStrings_perm _).symm)
      (List.sorted_insertionSort _ _) (List.sorted_insertionSort _ _)
  show (jsSortStrings ((fmv2Of reg l1).map Prod.fst)).map
      (fun key => (key, (alookup key (fmv2Of reg l1)).getD "")) =
    (jsSortStrings ((fmv2Of reg l2).map Prod.fst)).map
      (fun key => (key, (alookup key (fmv2Of reg l2)).getD ""))
  rw [hkeys]
  apply List.map_congr_left
  intro a _
  rw [alookup_fmv2Of, alookup_fmv2Of, halk a]

theorem touch_idem (dvn : String) (o : Option (List String)) :
    touch dvn (touch dvn o) = touch dvn o := by
  cases o with
  | none => simp [touch]
  | some vs =>
      by_cases hm : dvn ∈ vs
      · simp [touch, hm]
      · simp [touch, hm]

theorem touch_isSome (dvn : String) (o : Option (List String)) :
    (touch dvn o).isSome = true := by
  cases o <;> rfl

theorem touch_mem (dvn : String) (o : Option (List String)) (v : String) :
    v ∈ (touch dvn o).getD [] ↔ v = dvn ∨ v ∈ o.getD [] := by
  cases o with
  | none => simp [touch]
  | some vs =>
      by_cases hm : dvn ∈ vs
      · simp only [touch, if_pos hm, Option.getD_some]
        exact ⟨fun h => Or.inr h, fun h => h.elim (fun he => he ▸ hm) id⟩
      · simp only [touch, if_neg hm, Option.getD_some, List.mem_append,
          List.mem_singleton]
        exact ⟨fun h => h.elim Or.inr Or.inl, fun h => h.elim Or.inr Or.inl⟩

theorem touch_nodup (dvn : String) (o : Option (List String))
    (h : (o.getD []).Nodup) : ((touch dvn o).getD []).Nodup := by
  cases o with
  | none => simp [touch]
  | some vs =>
      by_cases hm : dvn ∈ vs
      · simpa [touch, hm] using h
      · simp only [Option.getD_some] at h
        simp [touch, hm, List.nodup_append, h]

theorem catStep_lookup2 (dvn : String) (rv : RestVersions)
    (c s c₀ s₀ : String) :
    lookup2 (catStep dvn rv c s) c₀ s₀ =
      if c = c₀ ∧ s = s₀ then touch dvn (lookup2 rv c₀ s₀)
      else lookup2 rv c₀ s₀ := by
  cases hsub : alookup s ((alookup c rv).getD []) with
  | none =>
      have hstep : catStep dvn rv c s =
          upsert rv c (upsert ((alookup c rv).getD []) s [dvn]) := by
        simp [catStep, hsub]
      rw [hstep]
      unfold lookup2
      rw [alookup_upsert]
      by_cases hc : c = c₀
      · rw [if_pos hc, Option.getD_some, alookup_upsert]
        by_cases hs : s = s₀
        · rw [if_pos hs, if_pos ⟨hc, hs⟩, ← hc, ← hs, hsub]
          rfl
        · rw [if_neg hs, if_neg (fun hb => hs hb.2), ← hc]
      · rw [if_neg hc, if_neg (fun hb => hc hb.1)]
  | some vs =>
      by_cases hm : dvn ∈ vs
      · have hstep : catStep dvn rv c s = rv := by
          simp [catStep, hsub, hm]
        rw [hstep]
        by_cases hb : c = c₀ ∧ s = s₀
        · rw [if_pos hb]
          unfold lookup2
          rw [← hb.1, ← hb.2, hsub]
          simp [touch, hm]
        · rw [if_neg hb]
      · have hstep : catStep dvn rv c s =
            upsert rv c (upsert ((alookup c rv).getD []) s (vs ++ [dvn])) := by
          simp [catStep, hsub, hm]
        rw [hstep]
        unfold lookup2
        rw [alookup_upsert]
        by_cases hc : c = c₀
        · rw [if_pos hc, Option.getD_some, alookup_upsert]
          by_cases hs : s = s₀
          · rw [if_pos hs, if_pos ⟨hc, hs⟩, ← hc, ← hs, hsub]
            simp [touch, hm]
          · rw [if_neg hs, if_neg (fun hb => hs hb.2), ← hc]
        · rw [if_neg hc, if_neg (fun hb => hc hb.1)]

theorem subsFold_lookup2 (dvn c : String) :
    ∀ (subs : List String) (rv : RestVersions) (c₀ s₀ : String),
      lookup2 (subs.foldl (fun acc sub => catStep dvn acc c sub) rv) c₀ s₀ =
        if c = c₀ ∧ s₀ ∈ subs then touch dvn (lookup2 rv c₀ s₀)
        else lookup2 rv c₀ s₀ := by
  intro subs
  induction subs with
  | nil => intro rv c₀ s₀; simp
  | cons s t ih =>
      intro rv c₀ s₀
      rw [List.foldl_cons, ih, catStep_lookup2]
      by_cases hc : c = c₀
      · by_cases hs : s = s₀
        · subst hs
          by_cases ht : s ∈ t
          · simp [hc, ht, touch_idem]
          · simp [hc, ht]
        · have hs2 : ¬ (s₀ = s) := fun h => hs h.symm
          by_cases ht : s₀ ∈ t
          · simp [hc, hs, hs2, ht]
          · simp [hc, hs, hs2, ht]
      · simp [hc]

theorem pairsFold_lookup2 (dvn : String) :
    ∀ (pairs : List (String × List String)) (rv : RestVersions)
      (c₀ s₀ : String),
      lookup2 (pairs.foldl
        (fun acc p =>
          p.2.foldl (fun acc2 sub => catStep dvn acc2 p.1 sub) acc) rv) c₀ s₀ =
        if pairs.any (fun p => decide (p.1 = c₀) && p.2.contains s₀) then
          touch dvn (lookup2 rv c₀ s₀)
        else lookup2 rv c₀ s₀ := by
  intro pairs
  induction pairs with
  | nil => intro rv c₀ s₀; simp
  | cons p t ih =>
      intro rv c₀ s₀
      rw [List.foldl_cons, ih, subsFold_lookup2, List.any_cons]
      have hcond : (decide (p.1 = c₀) && p.2.contains s₀) = true ↔
          (p.1 = c₀ ∧ s₀ ∈ p.2) := by
        rw [Bool.and_eq_true, decide_eq_true_eq, List.elem_iff]
      by_cases hp : p.1 = c₀ ∧ s₀ ∈ p.2
      · by_cases ht : (t.any fun p =>
            decide (p.1 = c₀) && p.2.contains s₀) = true
        · rw [if_pos ht, if_pos hp, touch_idem, ht, Bool.or_true, if_pos rfl]
        · rw [if_neg ht, if_pos hp, hcond.mpr hp, Bool.true_or, if_pos rfl]
      · have hpb : (decide (p.1 = c₀) && p.2.contains s₀) = false := by
          cases hb : (decide (p.1 = c₀) && p.2.contains s₀) with
          | false => rfl
          | true => exact absurd (hcond.mp hb) hp
        by_cases ht : (t.any fun p =>
            decide (p.1 = c₀) && p.2.contains s₀) = true
        · rw [if_pos ht, if_neg hp, ht, Bool.or_true, if_pos rfl]
        · rw [if_neg ht, if_neg hp, hpb]
          have htb : (t.any fun p =>
              decide (p.1 = c₀) && p.2.contains s₀) = false := by
            cases hb : (t.any fun p =>
                decide (p.1 = c₀) && p.2.contains s₀) with
            | false => rfl
            | true => exact absurd hb ht
          rw [htb]
          simp

theorem fileStep_lookup2 (gdv : String → String) (f : SchemaFile)
    (rv : RestVersions) (c₀ s₀ : String) :
    lookup2 (fileStep gdv rv f) c₀ s₀ =
      if fileMentions f c₀ s₀ = true then
        touch (gdv f.dirName) (lookup2 rv c₀ s₀)
      else lookup2 rv c₀ s₀ := by
  unfold fileStep fileMentions
  rw [pairsFold_lookup2]

theorem foldl_fileStep_isSome (gdv : String → String) :
    ∀ (fl : List SchemaFile) (rv : RestVersions) (c s : String),
      (lookup2 (fl.foldl (fileStep gdv) rv) c s).isSome =
        ((lookup2 rv c s).isSome ||
          fl.any (fun f => fileMentions f c s)) := by
  intro fl
  induction fl with
  | nil => intro rv c s; simp
  | cons f t ih =>
      intro rv c s
      rw [List.foldl_cons, ih, fileStep_lookup2, List.any_cons]
      by_cases hm : fileMentions f c s = true
      · rw [if_pos hm, hm, touch_isSome, Bool.true_or, Bool.or_true]
      · have hm' : fileMentions f c s = false := by
          cases hb : fileMentions f c s with
          | false => rfl
          | true => exact absurd hb hm
        rw [if_neg hm, hm', Bool.false_or]

theorem foldl_fileStep_mem (gdv : String → String) :
    ∀ (fl : List SchemaFile) (rv : RestVersions) (c s v : String),
      (v ∈ (lookup2 (fl.foldl (fileStep gdv) rv) c s).getD []) ↔
        v ∈ (lookup2 rv c s).getD [] ∨
          ∃ f, f ∈ fl ∧ fileMentions f c s = true ∧ gdv f.dirName = v := by
  intro fl
  induction fl with
  | nil => intro rv c s v; simp
  | cons f t ih =>
      intro rv c s v
      rw [List.foldl_cons, ih, fileStep_lookup2]
      by_cases hm : fileMentions f c s = true
      · rw [if_pos hm, touch_mem]
        constructor
        · rintro ((hv | hv) | ⟨g, hg, hgm, hgv⟩)
          · exact Or.inr ⟨f, List.mem_cons_self f t, hm, hv.symm⟩
          · exact Or.inl hv
          · exact Or.inr ⟨g, List.mem_cons_of_mem f hg, hgm, hgv⟩
        · rintro (hv | ⟨g, hg, hgm, hgv⟩)
          · exact Or.inl (Or.inr hv)
          · rcases List.mem_cons.mp hg with hgf | hgt
            · subst hgf
              exact Or.inl (Or.inl hgv.symm)
            · exact Or.inr ⟨g, hgt, hgm, hgv⟩
      · rw [if_neg hm]
        constructor
        · rintro (hv | ⟨g, hg, hgm, hgv⟩)
          · exact Or.inl hv
          · exact Or.inr ⟨g, List.mem_cons_of_mem f hg, hgm, hgv⟩
        · rintro (hv | ⟨g, hg, hgm, hgv⟩)
          · exact Or.inl hv
          · rcases List.mem_cons.mp hg with hgf | hgt
            · subst hgf
              exact absurd hgm hm
            · exact Or.inr ⟨g, hgt, hgm, hgv⟩

theorem foldl_fileStep_nodup (gdv : String → String) :
    ∀ (fl : List SchemaFile) (rv : RestVersions) (c s : String),
      ((lookup2 rv c s).getD []).Nodup →
      ((lookup2 (fl.foldl (fileStep gdv) rv) c s).getD []).Nodup := by
  intro fl
  induction fl with
  | nil => intro rv c s h; exact h
  | cons f t ih =>
      intro rv c s h
      rw [List.foldl_cons]
      apply ih
      rw [fileStep_lookup2]
      by_cases hm : fileMentions f c s = true
      · rw [if_pos hm]
        exact touch_nodup _ _ h
      · rw [if_neg hm]
        exact h

/-- C8 counterexample: two schema files contributing the same
category/subcategory from different version directories produce catalogs
whose `versions` lists differ (in order) under the two processing orders, so
the catalog `getDataFrontmatter` builds is not literally
order-independent. -/
theorem c8_catalog_depends_on_file_order :
    ¬ (getDataFrontmatter (fun x => x)
        [⟨"v1", [("c", ["s"])]⟩, ⟨"v2", [("c", ["s"])]⟩] =
      getDataFrontmatter (fun x => x)
        [⟨"v2", [("c", ["s"])]⟩, ⟨"v1", [("c", ["s"])]⟩]) := by
  decide

/-- C8 (amended): permuting the schema file list leaves the catalog the same
up to the order inside each `versions` list — each category/subcategory cell
exists in one catalog iff it exists in the other and collects the same set
of version names — and the per-subcategory versions frontmatter derived from
the catalog by `convertVersionsToFrontmatter` is identical, provided the
registry gives every numbered line one duplicate-free release list. -/
theorem c8_catalog_frontmatter_permutation_invariant
    (gdv : String → String) (reg : String → DocsVersion)
    (fl1 fl2 : List SchemaFile) (c s : String) (hp : fl1.Perm fl2)
    (hreg : ∀ v w : String, (reg v).shortName = (reg w).shortName →
      (reg v).hasNumberedReleases = true → (reg w).hasNumberedReleases = true →
      (reg v).releases = (reg w).releases)
    (hrnd : ∀ v : String, (reg v).hasNumberedReleases = true →
      (jsSortStrings (reg v).releases).Nodup) :
    (lookup2 (getDataFrontmatter gdv fl1) c s).isSome =
      (lookup2 (getDataFrontmatter gdv fl2) c s).isSome ∧
    (∀ v : String, v ∈ (lookup2 (getDataFrontmatter gdv fl1) c s).getD [] ↔
      v ∈ (lookup2 (getDataFrontmatter gdv fl2) c s).getD []) ∧
    convertVersionsToFrontmatter reg
        ((lookup2 (getDataFrontmatter gdv fl1) c s).getD []) =
      convertVersionsToFrontmatter reg
        ((lookup2 (getDataFrontmatter gdv fl2) c s).getD []) := by
  have hbase : lookup2 [] c s = none := rfl
  have hmem : ∀ v : String,
      v ∈ (lookup2 (getDataFrontmatter gdv fl1) c s).getD [] ↔
      v ∈ (lookup2 (getDataFrontmatter gdv fl2) c s).getD [] := by
    intro v
    unfold getDataFrontmatter
    rw [foldl_fileStep_mem, foldl_fileStep_mem, hbase]
    constructor
    · rintro (hv | ⟨f, hf, hfm, hfv⟩)
      · exact Or.inl hv
      · exact Or.inr ⟨f, hp.mem_iff.mp hf, hfm, hfv⟩
    · rintro (hv | ⟨f, hf, hfm, hfv⟩)
      · exact Or.inl hv
      · exact Or.inr ⟨f, hp.mem_iff.mpr hf, hfm, hfv⟩
  have hsome : (lookup2 (getDataFrontmatter gdv fl1) c s).isSome =
      (lookup2 (getDataFrontmatter gdv fl2) c s).isSome := by
    unfold getDataFrontmatter
    rw [foldl_fileStep_isSome, foldl_fileStep_isSome, hbase,
      perm_any_eq _ hp]
  have hnd1 : ((lookup2 (getDataFrontmatter gdv fl1) c s).getD []).Nodup :=
    foldl_fileStep_nodup gdv fl1 [] c s (by rw [hbase]; exact List.nodup_nil)
  have hnd2 : ((lookup2 (getDataFrontmatter gdv fl2) c s).getD []).Nodup :=
    foldl_fileStep_nodup gdv fl2 [] c s (by rw [hbase]; exact List.nodup_nil)
  exact ⟨hsome, hmem,
    convert_perm reg _ _ ((List.perm_ext_iff_of_nodup hnd1 hnd2).mpr hmem)
      hreg hrnd⟩

theorem c8_witness :
    (lookup2 (getDataFrontmatter (fun x => x)
        [⟨"v1", [("c", ["s"])]⟩, ⟨"v2", [("c", ["s"])]⟩]) "c" "s").isSome =
      (lookup2 (getDataFrontmatter (fun x => x)
        [⟨"v2", [("c", ["s"])]⟩, ⟨"v1", [("c", ["s"])]⟩]) "c" "s").isSome ∧
    (∀ v : String,
      v ∈ (lookup2 (getDataFrontmatter (fun x => x)
        [⟨"v1", [("c", ["s"])]⟩, ⟨"v2", [("c", ["s"])]⟩]) "c" "s").getD [] ↔
      v ∈ (lookup2 (getDataFrontmatter (fun x => x)
        [⟨"v2", [("c", ["s"])]⟩, ⟨"v1", [("c", ["s"])]⟩]) "c" "s").getD []) ∧
    convertVersionsToFrontmatter (fun _ => DocsVersion.mk "ghes" true ["3.3"] "3.3")
        ((lookup2 (getDataFrontmatter (fun x => x)
          [⟨"v1", [("c", ["s"])]⟩, ⟨"v2", [("c", ["s"])]⟩]) "c" "s").getD []) =
      convertVersionsToFrontmatter (fun _ => DocsVersion.mk "ghes" true ["3.3"] "3.3")
        ((lookup2 (getDataFrontmatter (fun x => x)
          [⟨"v2", [("c", ["s"])]⟩, ⟨"v1", [("c", ["s"])]⟩]) "c" "s").getD []) :=
  c8_catalog_frontmatter_permutation_invariant (fun x => x)
    (fun _ => DocsVersion.mk "ghes" true ["3.3"] "3.3")
    [⟨"v1", [("c", ["s"])]⟩, ⟨"v2", [("c", ["s"])]⟩]
    [⟨"v2", [("c", ["s"])]⟩, ⟨"v1", [("c", ["s"])]⟩]
    "c" "s"
    (List.Perm.swap (⟨"v2", [("c", ["s"])]⟩ : SchemaFile)
      (⟨"v1", [("c", ["s"])]⟩ : SchemaFile) [])
    (fun v w _ _ _ => rfl)
    (fun v _ => by
      show (jsSortStrings ["3.3"]).Nodup
      decide)
